import Mathlib

/-!
Verification of the `minimal` generative-graphics repository.

The 3D pipeline (src/dev/3d/prod.py, src/dev/3d/basics.py) and the
generative line (src/minimal/objects.py) are embedded shallowly over exact
rationals: every numpy float becomes a `Rat`, machine-float rounding is not
modelled, and Python exceptions become `Except String`.
-/

namespace Minimal

/-- A 3-component point, as in `vec3d` (prod.py line 72): exact rationals
stand in for numpy floats. -/
structure Vec3 where
  x : ℚ
  y : ℚ
  z : ℚ
deriving DecidableEq, Repr

/-- A homogeneous 4-component row vector, as produced by `w_pad`
(prod.py line 263). -/
structure Vec4 where
  x : ℚ
  y : ℚ
  z : ℚ
  w : ℚ
deriving DecidableEq, Repr

/-- A 4x4 matrix with entries `mIJ` = row I, column J, as the numpy arrays
built in prod.py / basics.py. -/
structure Mat4 where
  m00 : ℚ
  m01 : ℚ
  m02 : ℚ
  m03 : ℚ
  m10 : ℚ
  m11 : ℚ
  m12 : ℚ
  m13 : ℚ
  m20 : ℚ
  m21 : ℚ
  m22 : ℚ
  m23 : ℚ
  m30 : ℚ
  m31 : ℚ
  m32 : ℚ
  m33 : ℚ
deriving DecidableEq, Repr

/-- Row-vector times matrix, the `i @ j` product of `w_matmul`
(prod.py line 274) restricted to one point. -/
def rowMul (p : Vec4) (m : Mat4) : Vec4 :=
  { x := p.x * m.m00 + p.y * m.m10 + p.z * m.m20 + p.w * m.m30
    y := p.x * m.m01 + p.y * m.m11 + p.z * m.m21 + p.w * m.m31
    z := p.x * m.m02 + p.y * m.m12 + p.z * m.m22 + p.w * m.m32
    w := p.x * m.m03 + p.y * m.m13 + p.z * m.m23 + p.w * m.m33 }

/-- `w_pad` (prod.py line 263): pad a 3-point to homogeneous (x, y, z, 1). -/
def w_pad (p : Vec3) : Vec4 :=
  { x := p.x, y := p.y, z := p.z, w := 1 }

/-- The pre-divide image of a point: `o = i @ j` of `w_matmul` before the
division by w (prod.py line 274). -/
def preTransform (p : Vec3) (m : Mat4) : Vec4 :=
  rowMul (w_pad p) m

/-- `w_matmul` (prod.py lines 270-277) restricted to a single point:
pad to homogeneous, multiply, then divide the first three components by the
resulting w, where `w = np.where(w==0, 1, w)` replaces a zero w by 1 (so the
division is skipped exactly when w = 0). -/
def w_matmul (p : Vec3) (m : Mat4) : Vec3 :=
  let o := preTransform p m
  let w := if o.w = 0 then 1 else o.w
  { x := o.x / w, y := o.y / w, z := o.z / w }

/-- `MultiplyMatrixVector` (basics.py lines 96-101) on one homogeneous
point: multiply, then — unless the resulting w is exactly 0 — divide all
four components by w (so the first three are divided, and w becomes 1). -/
def MultiplyMatrixVector (p : Vec4) (m : Mat4) : Vec4 :=
  let o := rowMul p m
  if o.w ≠ 0 then { x := o.x / o.w, y := o.y / o.w, z := o.z / o.w, w := o.w / o.w }
  else o

/-- Rotation matrix about x from `geometry.get_rotation_matrix`
(prod.py lines 43-47), with `c` and `s` standing for the exact values of
`np.cos(theta)` and `np.sin(theta)`. -/
def rotXProd (c s : ℚ) : Mat4 :=
  { m00 := 1, m01 := 0, m02 := 0, m03 := 0
    m10 := 0, m11 := c, m12 := s, m13 := 0
    m20 := 0, m21 := -s, m22 := c, m23 := 0
    m30 := 0, m31 := 0, m32 := 0, m33 := 1 }

/-- Rotation matrix about y from `geometry.get_rotation_matrix`
(prod.py lines 48-52).  Note the entry `m03 = 1.0` transcribed verbatim from
the source's first row `[np.cos(theta), 0.0, np.sin(theta), 1.0]`. -/
def rotYProd (c s : ℚ) : Mat4 :=
  { m00 := c, m01 := 0, m02 := s, m03 := 1
    m10 := 0, m11 := 1, m12 := 0, m13 := 0
    m20 := -s, m21 := 0, m22 := c, m23 := 0
    m30 := 0, m31 := 0, m32 := 0, m33 := 1 }

/-- Rotation matrix about z from `geometry.get_rotation_matrix`
(prod.py lines 54-58). -/
def rotZProd (c s : ℚ) : Mat4 :=
  { m00 := c, m01 := s, m02 := 0, m03 := 0
    m10 := -s, m11 := c, m12 := 0, m13 := 0
    m20 := 0, m21 := 0, m22 := 1, m23 := 0
    m30 := 0, m31 := 0, m32 := 0, m33 := 1 }

/-- The message of the `UnboundLocalError` that an unknown axis produces in
`geometry.get_rotation_matrix`: the function has no `else` branch, so
`return rot_mat` reads an unbound local.  (CPython 3.11+ words the message
differently — `cannot access local variable ...` — but no version's message
names the accepted axes.) -/
def prodAxisErrMsg : String :=
  "UnboundLocalError: local variable \x27rot_mat\x27 referenced before assignment"

/-- `geometry.get_rotation_matrix(axis, theta)` (prod.py lines 40-60).
There is no `else` branch in the source: an unknown axis leaves `rot_mat`
unbound and the `return rot_mat` raises `UnboundLocalError`; the error is
modelled as `Except.error` carrying Python's message for that failure. -/
def get_rotation_matrix (axis : String) (c s : ℚ) : Except String Mat4 :=
  if axis = "x" then .ok (rotXProd c s)
  else if axis = "y" then .ok (rotYProd c s)
  else if axis = "z" then .ok (rotZProd c s)
  else .error prodAxisErrMsg

/-- Rotation about x from `rotation_matrices` (basics.py lines 75-80); the
other sign convention of the two present in the repository. -/
def rotXBasics (c s : ℚ) : Mat4 :=
  { m00 := 1, m01 := 0, m02 := 0, m03 := 0
    m10 := 0, m11 := c, m12 := -s, m13 := 0
    m20 := 0, m21 := s, m22 := c, m23 := 0
    m30 := 0, m31 := 0, m32 := 0, m33 := 1 }

/-- Rotation about y from `rotation_matrices` (basics.py lines 81-86). -/
def rotYBasics (c s : ℚ) : Mat4 :=
  { m00 := c, m01 := 0, m02 := s, m03 := 0
    m10 := 0, m11 := 1, m12 := 0, m13 := 0
    m20 := s, m21 := 0, m22 := c, m23 := 0
    m30 := 0, m31 := 0, m32 := 0, m33 := 1 }

/-- Rotation about z from `rotation_matrices` (basics.py lines 87-92). -/
def rotZBasics (c s : ℚ) : Mat4 :=
  { m00 := c, m01 := -s, m02 := 0, m03 := 0
    m10 := s, m11 := c, m12 := 0, m13 := 0
    m20 := 0, m21 := 0, m22 := 1, m23 := 0
    m30 := 0, m31 := 0, m32 := 0, m33 := 1 }

/-- The `ValueError` message of `rotation_matrices` for an unknown axis
(basics.py line 94). -/
def basicsAxisErrMsg : String :=
  "Provided matrix not available. Options: \x27x\x27, \x27y\x27, \x27z\x27"

/-- `rotation_matrices(matrix, theta)` (basics.py lines 72-94); an unknown
axis string raises `ValueError` with a message naming the accepted axes. -/
def rotation_matrices (axis : String) (c s : ℚ) : Except String Mat4 :=
  if axis = "x" then .ok (rotXBasics c s)
  else if axis = "y" then .ok (rotYBasics c s)
  else if axis = "z" then .ok (rotZBasics c s)
  else .error basicsAxisErrMsg

/-- The projection matrix `matProj` (prod.py lines 30-33) with
fNear = 1/10, fFar = 1000, fFov = 90 degrees, aspect ratio 1; at 90 degrees
`fFovRad = 1/tan(45 deg) = 1` exactly. -/
def matProj : Mat4 :=
  { m00 := 1, m01 := 0, m02 := 0, m03 := 0
    m10 := 0, m11 := 1, m12 := 0, m13 := 0
    m20 := 0, m21 := 0, m22 := 1000 / (1000 - 1/10), m23 := 1
    m30 := 0, m31 := 0, m32 := (-1000 * (1/10)) / (1000 - 1/10), m33 := 0 }

/-- A triangle: three vertices, as the `(3, 3)` vertex block of one entry of
`Mesh.vertices` (prod.py line 140). -/
structure Tri where
  p1 : Vec3
  p2 : Vec3
  p3 : Vec3
deriving DecidableEq, Repr

/-- An IEEE-style extended value: numpy float division by zero does not
raise, it produces `inf`, `-inf` or `nan` (default errstate only warns).
Finite values are exact rationals. -/
inductive NumF where
  | fin (q : ℚ)
  | pinf
  | ninf
  | nan
deriving DecidableEq, Repr

/-- Whether an extended value is finite. -/
def NumF.isFinite : NumF → Bool
  | .fin _ => true
  | _ => false

/-- numpy division of a finite value by a finite value: a zero divisor
yields `inf`, `-inf` or `nan` by the sign of the dividend, with only a
runtime warning, never an exception. -/
def divF (a b : ℚ) : NumF :=
  if b = 0 then (if 0 < a then .pinf else if a < 0 then .ninf else .nan)
  else .fin (a / b)

/-- A vertex after a translate op, with possibly non-finite components. -/
structure Vec3F where
  x : NumF
  y : NumF
  z : NumF
deriving DecidableEq, Repr

/-- A triangle with possibly non-finite components. -/
structure TriF where
  p1 : Vec3F
  p2 : Vec3F
  p3 : Vec3F
deriving DecidableEq, Repr

/-- Apply one of the four component-wise vertex ops of `Mesh.translate`
(prod.py lines 172-179) to a single vertex. -/
def vertexOp (f : ℚ → ℚ → NumF) (d : Vec3) (p : Vec3) : Vec3F :=
  { x := f p.x d.x, y := f p.y d.y, z := f p.z d.z }

/-- Lift a vertex op over a triangle (the source op acts on the whole
`(N, 3, 3)` array at once; per-component semantics is identical). -/
def triOp (f : ℚ → ℚ → NumF) (d : Vec3) (t : Tri) : TriF :=
  { p1 := vertexOp f d t.p1, p2 := vertexOp f d t.p2, p3 := vertexOp f d t.p3 }

/-- The error message of the final `raise KeyError` of `Mesh.translate`
(prod.py lines 181-182). -/
def translateErrMsg (method : String) : String :=
  "Method not recognized; provided " ++ method ++
    ". Accepts: \x27add\x27, \x27sub\x27, \x27mul\x27, \x27div\x27"

/-- `Mesh.translate(x, y, z, method)` (prod.py lines 169-182): dispatch on
the `method` keyword; `add`, `sub`, `mul` stay finite on finite input;
`div` uses numpy division (`divF`), which absorbs a zero divisor into
`inf`, `-inf` or `nan` instead of raising; an unknown keyword raises
`KeyError` with a message naming the accepted set. -/
def Mesh.translate (mesh : List Tri) (d : Vec3) (method : String) :
    Except String (List TriF) :=
  if method = "add" then .ok (mesh.map (triOp (fun a b => .fin (a + b)) d))
  else if method = "sub" then .ok (mesh.map (triOp (fun a b => .fin (a - b)) d))
  else if method = "mul" then .ok (mesh.map (triOp (fun a b => .fin (a * b)) d))
  else if method = "div" then .ok (mesh.map (triOp divF d))
  else .error (translateErrMsg method)

/-- Whether the pattern occurs at the head of the character list. -/
def charsPrefix : List Char → List Char → Bool
  | [], _ => true
  | _ :: _, [] => false
  | a :: as, b :: bs => a = b && charsPrefix as bs

/-- Whether the pattern occurs anywhere in the character list. -/
def charsOccur (pat : List Char) : List Char → Bool
  | [] => charsPrefix pat []
  | c :: cs => charsPrefix pat (c :: cs) || charsOccur pat cs

/-- Whether `pat` occurs as a substring of `s`. -/
def strOccurs (pat s : String) : Bool :=
  charsOccur pat.toList s.toList

/-- Whether an error message names every keyword of the accepted set. -/
def namesSet (msg : String) (kws : List String) : Bool :=
  kws.all (fun k => strOccurs k msg)

/-- Pipeline stages of one animation frame, as named by the specification. -/
inductive Stage where
  | rotated
  | translated
  | projected
  | viewportScaled
  | sorted
  | culled
  | illuminated
  | rasterized
deriving DecidableEq, Repr

/-- The deferred-execution entries of `Mesh.textures`: `Mesh.visible`
(prod.py line 187) registers `_visible`, `Mesh.illuminate` (lines 199-200)
registers `_illuminate` and `_shaded`; the dict preserves insertion order. -/
inductive Texture where
  | visible
  | illuminate
  | shaded
deriving DecidableEq, Repr

/-- `Mesh.visible` (prod.py lines 184-187) only registers the back-face
cull `_visible` in the texture registry; it does not run it. -/
def registerVisible (ts : List Texture) : List Texture :=
  ts ++ [.visible]

/-- `Mesh.illuminate` (prod.py lines 196-200) only registers `_illuminate`
and `_shaded` in the texture registry; it does not run them. -/
def registerIlluminate (ts : List Texture) : List Texture :=
  ts ++ [.illuminate, .shaded]

/-- The pipeline stage a registered texture performs when `Mesh._draw`
finally runs it: `_visible` culls, `_illuminate` shades flat, `_shaded`
emits fill strokes (rasterizes). -/
def textureStage : Texture → Stage
  | .visible => .culled
  | .illuminate => .illuminated
  | .shaded => .rasterized

/-- The stage trace of `Mesh._draw` (prod.py lines 241-261): project, the
two viewport-mapping translates (`translate(1,1)` then the
`0.5*width/height` mul), sort, then every registered texture in insertion
order, then the wireframe edge emission if enabled. -/
def drawTrace (ts : List Texture) (wireframe : Bool) : List Stage :=
  [.projected, .viewportScaled, .viewportScaled, .sorted] ++
    ts.map textureStage ++ (if wireframe then [.rasterized] else [])

/-- The per-frame stage trace of the driver loop (prod.py lines 279-329):
`r` calls to `Mesh.rotate` and `t` calls to `Mesh.translate`, then
`visible()` and `illuminate()` register their textures, then the canvas
draws the mesh via `Mesh._draw`. -/
def frameTrace (r t : ℕ) : List Stage :=
  List.replicate r .rotated ++ List.replicate t .translated ++
    drawTrace (registerIlluminate (registerVisible [])) true

/-- Rank of a stage in the order the code actually executes them. -/
def stageRank : Stage → ℕ
  | .rotated => 0
  | .translated => 1
  | .projected => 2
  | .viewportScaled => 3
  | .sorted => 4
  | .culled => 5
  | .illuminated => 6
  | .rasterized => 7

/-- Rank of a stage in the order claimed by the specification
(cull and illuminate before project and viewport-scale). -/
def specStageRank : Stage → ℕ
  | .rotated => 0
  | .translated => 1
  | .culled => 2
  | .illuminated => 3
  | .projected => 4
  | .viewportScaled => 5
  | .sorted => 6
  | .rasterized => 7

/-- Strict lexicographic order on (payload, key) pairs by key first, then
payload — the ordering a stable sort of distinct payloads realizes. -/
def pairLt (p q : ℕ × ℚ) : Prop :=
  p.2 < q.2 ∨ (p.2 = q.2 ∧ p.1 < q.1)

/-- Mean of the three z components of a triangle:
`np.sum(self.vertices[:,:,-1], axis=1) / 3` (prod.py line 220). -/
def meanZ (t : Tri) : ℚ :=
  (t.p1.z + t.p2.z + t.p3.z) / 3

/-- The per-triangle sort keys of `Mesh.sort`. -/
def meanZs (mesh : List Tri) : List ℚ :=
  mesh.map meanZ

/-- One step of numpy's argsort insertion sort (npysort quicksort.c.src,
small-array path): the new entry is shifted left past entries whose key is
strictly greater, i.e. it lands after every entry with key at most its own.
Entries are (payload, key) pairs; only keys are compared, so equal keys keep
arrival order. -/
def insOne (p : ℕ × ℚ) : List (ℕ × ℚ) → List (ℕ × ℚ)
  | [] => [p]
  | q :: rest => if q.2 ≤ p.2 then q :: insOne p rest else p :: q :: rest

/-- Insertion sort of (payload, key) pairs, processing input left to right
as the numpy insertion loop does. -/
def insSortPairs (l : List (ℕ × ℚ)) : List (ℕ × ℚ) :=
  l.foldl (fun acc p => insOne p acc) []

/-- The (index, key) pairs of a key list, in input order. -/
def pairsOf (v : List ℚ) : List (ℕ × ℚ) :=
  (List.range v.length).map (fun i => (i, v.getD i 0))

/-- numpy argsort for at most 16 elements: the quicksort partition loop is
skipped (`SMALL_QUICKSORT = 15`) and a single stable insertion sort over
the whole array runs. -/
def smallArgsort (v : List ℚ) : List ℕ :=
  (insSortPairs (pairsOf v)).map Prod.fst

/-- Index array read with default 0 (indices are always in bounds in the
reachable states; `getD` keeps the definition total). -/
def aGet (t : Array ℕ) (i : ℕ) : ℕ :=
  t.getD i 0

/-- The key of the element the index array points to at position `i`:
`v[tosort[i]]`. -/
def kGet (v : Array ℚ) (t : Array ℕ) (i : ℕ) : ℚ :=
  v.getD (aGet t i) 0

/-- `INTP_SWAP(*i, *j)` on the index array. -/
def aSwap (t : Array ℕ) (i j : ℕ) : Array ℕ :=
  let a := aGet t i
  let b := aGet t j
  (t.setD i b).setD j a

/-- The `do ++pi; while (LT(v[*pi], vp));` scan of numpy's partition. -/
def scanUp (v : Array ℚ) (t : Array ℕ) (vp : ℚ) (pi : ℕ) : ℕ → ℕ
  | 0 => pi + 1
  | fuel + 1 =>
    let pi' := pi + 1
    if kGet v t pi' < vp then scanUp v t vp pi' fuel else pi'

/-- The `do --pj; while (LT(vp, v[*pj]));` scan of numpy's partition. -/
def scanDown (v : Array ℚ) (t : Array ℕ) (vp : ℚ) (pj : ℕ) : ℕ → ℕ
  | 0 => pj - 1
  | fuel + 1 =>
    let pj' := pj - 1
    if vp < kGet v t pj' then scanDown v t vp pj' fuel else pj'

/-- The Hoare partition exchange loop of numpy's argsort quicksort:
advance both scans, stop when they cross, otherwise swap and continue.
Returns the final index array and the crossing position `pi`. -/
def partLoop (v : Array ℚ) (t : Array ℕ) (vp : ℚ) (pi pj : ℕ) :
    ℕ → Array ℕ × ℕ
  | 0 => (t, pi)
  | fuel + 1 =>
    let pi' := scanUp v t vp pi t.size
    let pj' := scanDown v t vp pj t.size
    if pj' ≤ pi' then (t, pi')
    else partLoop v (aSwap t pi' pj') vp pi' pj' fuel

/-- The numpy insertion sort run on the subrange `[pl, pr]` of the index
array (the small-segment leaf of the quicksort). -/
def insertRangeArr (v : Array ℚ) (t : Array ℕ) (pl pr : ℕ) : Array ℕ :=
  let seg := (List.range (pr + 1 - pl)).map (fun k => aGet t (pl + k))
  let sorted := (insSortPairs (seg.map (fun i => (i, v.getD i 0)))).map Prod.fst
  (List.range sorted.length).foldl (fun acc k => acc.setD (pl + k) (sorted.getD k 0)) t

/-- numpy's argsort introsort (npysort quicksort.c.src, `aquicksort_`) on
the subrange `[pl, pr]`: while the segment holds more than 16 entries,
median-of-3 pivot selection, Hoare partition, recursion on both sides;
small segments fall to the stable insertion sort.  Transcribed from the
NumPy implementation backing `np.argsort(kind=quicksort)`, which the
repository calls with its default kind (prod.py line 220); the
depth-limited heapsort fallback is not modelled (it is unreachable at the
sizes evaluated here), and the explicit work stack is rendered as recursion
on both partitions, which touches the same disjoint subranges. -/
def qsortRec (v : Array ℚ) : Array ℕ → ℕ → ℕ → ℕ → Array ℕ
  | t, _, _, 0 => t
  | t, pl, pr, fuel + 1 =>
    if 15 < pr - pl then
      let pm := pl + (pr - pl) / 2
      let t1 := if kGet v t pm < kGet v t pl then aSwap t pm pl else t
      let t2 := if kGet v t1 pr < kGet v t1 pm then aSwap t1 pr pm else t1
      let t3 := if kGet v t2 pm < kGet v t2 pl then aSwap t2 pm pl else t2
      let vp := kGet v t3 pm
      let t4 := aSwap t3 pm (pr - 1)
      let s := partLoop v t4 vp pl (pr - 1) t4.size
      let t6 := aSwap s.1 s.2 (pr - 1)
      let t7 := qsortRec v t6 pl (s.2 - 1) fuel
      qsortRec v t7 (s.2 + 1) pr fuel
    else insertRangeArr v t pl pr

/-- `np.argsort` with the default quicksort kind, as called by `Mesh.sort`:
indices that order the key list ascending; at most 16 keys take the pure
stable insertion path, larger inputs go through the introsort. -/
def argsortNumpy (v : List ℚ) : List ℕ :=
  let n := v.length
  if n = 0 then []
  else if n ≤ 16 then smallArgsort v
  else (qsortRec v.toArray (List.range n).toArray 0 (n - 1) n).toList

/-- The values the index array holds on positions `[pl, pl + len)`, read
as a list — the subrange a quicksort call works on. -/
def segOf (t : Array ℕ) (pl len : ℕ) : List ℕ :=
  (List.range len).map (fun k => aGet t (pl + k))

/-- Placeholder vertex data for the always-in-bounds index read. -/
def triDefault : Tri :=
  { p1 := ⟨0, 0, 0⟩, p2 := ⟨0, 0, 0⟩, p3 := ⟨0, 0, 0⟩ }

/-- `Mesh.sort` (prod.py lines 217-220):
`self.vertices = self.vertices[argsort(mean z)]` — reorder the triangles by
the argsort permutation of their mean z values. -/
def Mesh.sort (mesh : List Tri) : List Tri :=
  (argsortNumpy (meanZs mesh)).map (fun i => mesh.getD i triDefault)

/-- Python `int()` applied to a (here exact) float: truncation toward
zero. -/
def pyInt (q : ℚ) : ℤ :=
  if q < 0 then -(Int.floor (-q)) else Int.floor q

/-- `np.linspace(a, b, n)` over exact rationals: `n` evenly spaced samples
from `a` to `b` inclusive; `n = 1` yields `[a]`, `n = 0` yields `[]`.
numpy computes `a + i * (b - a) / (n - 1)` and pins the final sample to
`b`, which in exact arithmetic the formula already gives. -/
def linspaceQ (a b : ℚ) (n : ℕ) : List ℚ :=
  (List.range n).map (fun i : ℕ => a + (i : ℚ) * (b - a) / ((n : ℚ) - 1))

/-- The state of `objects.Line` (objects.py lines 20-83).  Colors are an
opaque type parameter `C` standing for `colour.Color` objects; every other
field mirrors the Python attribute of the same name (`_repeat`, `_lead`,
`_follow` lose their underscore; `repeat` is a Lean keyword, hence
`repeatFlag`). -/
structure Line (C : Type) where
  div : ℕ
  start : ℚ × ℚ
  stop : ℚ × ℚ
  pts : List (ℚ × ℚ)
  colors : List C
  alphas : List ℚ
  colorranges : List (ℤ × ℤ)
  csystem : String
  offset : ℚ × ℚ
  lineWidth : ℚ
  repeatFlag : Bool
  lead : ℕ
  follow : ℕ
deriving DecidableEq, Repr

/-- The `Line.__init__` start/stop form (objects.py lines 56-83): reject
`div < 2` with `ValueError`, interpolate `div` points from start to stop,
one uniform color segment `(0, div)`, cursor at `_lead = div`,
`_follow = 0`, repeat disarmed. -/
def mkLine (C : Type) (start stop : ℚ × ℚ) (div : ℕ) (color : C) (alpha : ℚ) :
    Except String (Line C) :=
  if div < 2 then .error "Divisions cannot be set to a value less than two"
  else .ok
    { div := div
      start := start
      stop := stop
      pts := (linspaceQ start.1 stop.1 div).zip (linspaceQ start.2 stop.2 div)
      colors := [color]
      alphas := [alpha]
      colorranges := [((0 : ℤ), (div : ℤ))]
      csystem := "cartesian"
      offset := (0, 0)
      lineWidth := 2
      repeatFlag := false
      lead := div
      follow := 0 }

/-- `Line.gradient(color, step, alpha)` (objects.py lines 153-176).
`rangeTo` stands for `colour.Color.range_to`, which yields `step`
interpolated colors; the zip of the `step` (color, alpha) pairs with the
`step - 1` adjacent pairs of `np.linspace(0, div, step)` truncates to
`step - 1` entries, each boundary cast with Python `int()`.  The Python
`self.colors[-1]` / `self.alphas[-1]` reads hit nonempty lists in every
constructed line; `getLastD` defaults are never used there. -/
def Line.gradient {C : Type} (l : Line C) (rangeTo : C → C → ℕ → List C)
    (color : C) (step : ℕ) (alpha : ℚ × ℚ) : Line C :=
  let c0 := l.colors.getLastD color
  let a0 := l.alphas.getLastD alpha.1
  let ranges := linspaceQ 0 l.div step
  let alphasL := linspaceQ alpha.1 alpha.2 step
  let zipped := ((rangeTo c0 color step).zip alphasL).zip (ranges.zip ranges.tail)
  { l with
    colors := c0 :: zipped.map (fun z => z.1.1)
    alphas := a0 :: zipped.map (fun z => z.1.2)
    colorranges := zipped.map (fun z => (pyInt z.2.1, pyInt z.2.2)) }

/-- The cursor advance at the end of `Line._draw` (objects.py lines
124-130): when repeat is armed, `_lead` walks up to `div`, then `_follow`
walks up to `div`, then — once `_follow == _lead` — both reset to 0. -/
def drawAdvance {C : Type} (l : Line C) : Line C :=
  if l.repeatFlag then
    if l.lead < l.div then { l with lead := l.lead + 1 }
    else if l.div ≤ l.lead ∧ l.follow < l.div then { l with follow := l.follow + 1 }
    else if l.follow = l.lead then { l with follow := 0, lead := 0 }
    else l
  else l

/-- `Line.repeat(random)` (objects.py lines 178-194): arm the repeat flag
and seat `_lead` at 0, or — with `random=True` — at the sampled value `r`
of `np.random.choice(self.div)`, which is uniform on `[0, div)`. -/
def repeatArm {C : Type} (l : Line C) (random : Bool) (r : ℕ) : Line C :=
  { l with repeatFlag := true, lead := if random then r else 0 }

/-- `Line.couple(line)` (objects.py lines 196-211): take the other line's
stop, extend `div` and `_lead` by the other's `div`, append a color
segment from the previous final boundary, append the other's first color
(`line.colors[0]`, rendered as `take 1`), and concatenate the points
minus this line's duplicated final vertex (`self.pts[:-1]`).  The
`self.colorranges[-1]` read hits a nonempty list in every constructed
line; the `getLastD` default is never used there.  `alphas` is left
unchanged, exactly as in the source. -/
def Line.couple {C : Type} (l other : Line C) : Line C :=
  let lastHi := (l.colorranges.getLastD (0, 0)).2
  { l with
    stop := other.stop
    div := l.div + other.div
    colorranges := l.colorranges ++ [(lastHi, lastHi + (other.div : ℤ))]
    colors := l.colors ++ other.colors.take 1
    lead := l.lead + other.div
    pts := l.pts.dropLast ++ other.pts }

/-- Sequential noise displacement of one point (the body of the loop in
`Line.noise`, objects.py lines 236-242): the x coordinate is displaced
first, and the y displacement samples the noise field at the already
updated x — the order-dependent coupling called out by the spec.
`n3` stands for `noise.SimplexNoise().noise3`.
Modelled from the spec: the `minimal.noise` module (imported at
objects.py line 14) is not under src/; per the spec it is a deterministic
3D gradient-noise function, so it enters here as an opaque function
argument. -/
def noisePoint (d : ℕ) (n3 : ℚ → ℚ → ℚ → ℚ) (sx sy z : ℚ) (p : ℚ × ℚ) :
    ℚ × ℚ :=
  let x := p.1 + sx * n3 (p.1 / d) (p.2 / d) z
  let y := p.2 + sy * n3 (x / d) (p.2 / d) z
  (x, y)

/-- `Line.noise(scale, z)` (objects.py lines 213-242): a scalar scale is
applied to both axes, a pair scale per axis (the two accepted argument
shapes; any other type raises and is not representable here); every point
is displaced in place, and nothing else in the line is touched. -/
def Line.noise {C : Type} (l : Line C) (n3 : ℚ → ℚ → ℚ → ℚ)
    (scale : ℚ ⊕ (ℚ × ℚ)) (z : ℚ) : Line C :=
  let s := match scale with
    | .inl u => (u, u)
    | .inr p => p
  { l with pts := l.pts.map (noisePoint l.div n3 s.1 s.2 z) }

/-- One mutating operation on a line, for the cursor invariant: a render
(`_draw`) advance, a `repeat` arming (with the sampled start when
`random=True`), or a `couple`. -/
inductive LineOp (C : Type) where
  | draw
  | rep (random : Bool) (r : ℕ)
  | cpl (other : Line C)

/-- Apply one operation. -/
def execOp {C : Type} (l : Line C) : LineOp C → Line C
  | .draw => drawAdvance l
  | .rep random r => repeatArm l random r
  | .cpl other => l.couple other

/-- Run a sequence of operations. -/
def execOps {C : Type} (l : Line C) : List (LineOp C) → Line C
  | [] => l
  | op :: rest => execOps (execOp l op) rest

/-- Well-formedness of one op at a state: a `repeat(random=True)` carries a
sample in `[0, div)`, as `np.random.choice(self.div)` guarantees. -/
def opWFb {C : Type} (l : Line C) : LineOp C → Bool
  | .rep true r => decide (r < l.div)
  | _ => true

/-- Whether an op is not a `repeat` arming issued while `_follow > 0`. -/
def opArmZerob {C : Type} (l : Line C) : LineOp C → Bool
  | .rep _ _ => decide (l.follow = 0)
  | _ => true

/-- Well-formedness of a run: every `repeat(random=True)` sample is in
`[0, div)` at its moment. -/
def opsWF {C : Type} (l : Line C) : List (LineOp C) → Bool
  | [] => true
  | op :: rest => opWFb l op && opsWF (execOp l op) rest

/-- Whether every `repeat` arming in the run happens while `_follow = 0`
(true in particular when `repeat` is armed once, before any renders). -/
def armsAtZero {C : Type} (l : Line C) : List (LineOp C) → Bool
  | [] => true
  | op :: rest => opArmZerob l op && armsAtZero (execOp l op) rest

/-- A triangle with mean z 0, tagged by its x coordinate, for the concrete
sort inputs. -/
def exTri (i : ℕ) : Tri :=
  { p1 := ⟨i, 0, 0⟩, p2 := ⟨0, 0, 0⟩, p3 := ⟨0, 0, 0⟩ }

/-- Seventeen distinct triangles, all with mean z 0: one more than the
insertion-sort cutoff of numpy's quicksort. -/
def ex17 : List Tri :=
  (List.range 17).map exTri

/-- Three distinct triangles, all with mean z 0: inside the insertion-sort
regime. -/
def mesh3 : List Tri :=
  [exTri 0, exTri 1, exTri 2]

/-- `colour.Color.range_to` for the trivial color type: `step` colors. -/
def unitRangeTo : Unit → Unit → ℕ → List Unit :=
  fun _ _ n => List.replicate n ()

/-- The line `Line((0,0), (1,1), div=100)` with default color and alpha:
exactly the `.ok` payload of `mkLine`. -/
def exLine100 : Line Unit :=
  { div := 100
    start := (0, 0)
    stop := (1, 1)
    pts := (linspaceQ 0 1 100).zip (linspaceQ 0 1 100)
    colors := [()]
    alphas := [1]
    colorranges := [(0, 100)]
    csystem := "cartesian"
    offset := (0, 0)
    lineWidth := 2
    repeatFlag := false
    lead := 100
    follow := 0 }

/-- The line `Line((0,0), (1,1), div=5)`. -/
def exLine5 : Line Unit :=
  { div := 5
    start := (0, 0)
    stop := (1, 1)
    pts := (linspaceQ 0 1 5).zip (linspaceQ 0 1 5)
    colors := [()]
    alphas := [1]
    colorranges := [(0, 5)]
    csystem := "cartesian"
    offset := (0, 0)
    lineWidth := 2
    repeatFlag := false
    lead := 5
    follow := 0 }

/-- `exLine5` after `repeat()`: armed, cursor at `(follow, lead) = (0, 0)`. -/
def exLine5Armed : Line Unit :=
  repeatArm exLine5 false 0

/-- The line `Line((0,0), (1,1), div=2)`. -/
def exLine2 : Line Unit :=
  { div := 2
    start := (0, 0)
    stop := (1, 1)
    pts := (linspaceQ 0 1 2).zip (linspaceQ 0 1 2)
    colors := [()]
    alphas := [1]
    colorranges := [(0, 2)]
    csystem := "cartesian"
    offset := (0, 0)
    lineWidth := 2
    repeatFlag := false
    lead := 2
    follow := 0 }

/-- Arm repeat, render three times (lead reaches div = 2, then follow
advances to 1), then re-arm: the second arming resets `_lead` to 0 while
`_follow` is still 1. -/
def badOps : List (LineOp Unit) :=
  [.rep false 0, .draw, .draw, .draw, .rep false 0]

/-- A well-formed run whose armings all happen at `_follow = 0`: a random
arming with sample 1, a render, a couple, another render. -/
def goodOps : List (LineOp Unit) :=
  [.rep true 1, .draw, .cpl exLine2, .draw]

/-! ## Theorems -/

/-- Helper: a run of equal elements prefixed to a chain stays a chain when
the element is reflexive and relates to the head. -/
theorem chain'_replicate_append {α : Type} {R : α → α → Prop} (a : α)
    (haa : R a a) (n : ℕ) (l : List α) (hl : List.Chain' R l)
    (hh : ∀ b ∈ l.head?, R a b) :
    List.Chain' R (List.replicate n a ++ l) := by
  induction n with
  | zero => simpa using hl
  | succ m ih =>
    rw [List.replicate_succ, List.cons_append]
    refine List.chain'_cons'.mpr ⟨?_, ih⟩
    intro y hy
    cases m with
    | zero =>
      simp only [List.replicate, List.nil_append] at hy
      exact hh y hy
    | succ k =>
      rw [List.replicate_succ, List.cons_append, List.head?_cons,
        Option.mem_def, Option.some.injEq] at hy
      exact hy ▸ haa

/-- Claim C2 (corrected): within one frame the stages execute in the order
Rotated*, Translated*, Projected, ViewportScaled, Sorted, Culled,
Illuminated, Rasterized — the registered cull and illuminate textures run
inside `Mesh._draw` after projection, viewport scaling and sorting, for any
number of pre-draw rotates and translates. -/
theorem pipeline_stage_order_actual (r t : ℕ) :
    List.Chain' (fun x y => stageRank x ≤ stageRank y) (frameTrace r t) := by
  unfold frameTrace
  rw [List.append_assoc]
  refine chain'_replicate_append (R := fun x y => stageRank x ≤ stageRank y)
    Stage.rotated (by decide) r _ ?_ ?_
  · refine chain'_replicate_append (R := fun x y => stageRank x ≤ stageRank y)
      Stage.translated (by decide) t _ ?_ ?_
    · simp [drawTrace, registerVisible, registerIlluminate, List.chain'_cons,
        textureStage, stageRank]
    · intro b hb
      simp only [drawTrace, registerVisible, registerIlluminate,
        List.nil_append, List.cons_append, List.head?_cons, Option.mem_def,
        Option.some.injEq] at hb
      subst hb
      decide
  · intro b _
    exact Nat.zero_le _

/-- Witness for C2 at the driver's own frame shape (two rotates, one
translate). -/
theorem pipeline_stage_order_actual_witness :
    List.Chain' (fun x y => stageRank x ≤ stageRank y) (frameTrace 2 1) :=
  pipeline_stage_order_actual 2 1

/-- Counterexample to C2 as stated: the frame trace of the driver loop
(two rotates, one translate) violates the specified order
Rotated, Translated, Culled, Illuminated, Projected, ViewportScaled,
Sorted, Rasterized — culling runs after projection. -/
theorem pipeline_cull_after_project :
    ¬ List.Chain' (fun x y => specStageRank x ≤ specStageRank y)
      (frameTrace 2 1) := by
  have he : frameTrace 2 1 =
      [Stage.rotated, .rotated, .translated, .projected, .viewportScaled,
        .viewportScaled, .sorted, .culled, .illuminated, .rasterized,
        .rasterized] := rfl
  rw [he]
  simp [List.chain'_cons, specStageRank]

/-- Claim C4 (confirmed): both homogeneous point transforms skip the
perspective divide exactly when the resulting w is 0 — the output then
equals the pre-divide components exactly, with nothing non-finite produced
— and divide the first three components by w otherwise (`w_matmul` of
prod.py divides the three spatial components; `MultiplyMatrixVector` of
basics.py divides all four, which also divides the first three). -/
theorem w_matmul_zero_w_skips_divide (m : Mat4) (p : Vec3) (q : Vec4) :
    ((preTransform p m).w = 0 →
      w_matmul p m =
        ⟨(preTransform p m).x, (preTransform p m).y, (preTransform p m).z⟩) ∧
    ((preTransform p m).w ≠ 0 →
      w_matmul p m =
        ⟨(preTransform p m).x / (preTransform p m).w,
          (preTransform p m).y / (preTransform p m).w,
          (preTransform p m).z / (preTransform p m).w⟩) ∧
    ((rowMul q m).w = 0 → MultiplyMatrixVector q m = rowMul q m) ∧
    ((rowMul q m).w ≠ 0 →
      MultiplyMatrixVector q m =
        ⟨(rowMul q m).x / (rowMul q m).w, (rowMul q m).y / (rowMul q m).w,
          (rowMul q m).z / (rowMul q m).w, (rowMul q m).w / (rowMul q m).w⟩) := by
  refine ⟨?_, ?_, ?_, ?_⟩
  · intro h
    simp [w_matmul, h]
  · intro h
    simp [w_matmul, h]
  · intro h
    simp [MultiplyMatrixVector, h]
  · intro h
    simp [MultiplyMatrixVector, h]

/-- Witness for C4: the projection matrix sends a point with z = 0 to
w = 0 (divide skipped, exact pre-divide values), and a point with z = 2 to
a nonzero w (all three components divided). -/
theorem w_matmul_zero_w_skips_divide_witness :
    (preTransform ⟨2, 3, 0⟩ matProj).w = 0 ∧
    w_matmul ⟨2, 3, 0⟩ matProj =
      ⟨(preTransform ⟨2, 3, 0⟩ matProj).x, (preTransform ⟨2, 3, 0⟩ matProj).y,
        (preTransform ⟨2, 3, 0⟩ matProj).z⟩ ∧
    (preTransform ⟨0, 0, 2⟩ matProj).w ≠ 0 ∧
    w_matmul ⟨0, 0, 2⟩ matProj =
      ⟨(preTransform ⟨0, 0, 2⟩ matProj).x / (preTransform ⟨0, 0, 2⟩ matProj).w,
        (preTransform ⟨0, 0, 2⟩ matProj).y / (preTransform ⟨0, 0, 2⟩ matProj).w,
        (preTransform ⟨0, 0, 2⟩ matProj).z / (preTransform ⟨0, 0, 2⟩ matProj).w⟩ ∧
    (rowMul ⟨2, 3, 0, 1⟩ matProj).w = 0 ∧
    MultiplyMatrixVector ⟨2, 3, 0, 1⟩ matProj = rowMul ⟨2, 3, 0, 1⟩ matProj := by
  have h0 : (preTransform ⟨2, 3, 0⟩ matProj).w = 0 := by with_unfolding_all rfl
  have h2 : (preTransform ⟨0, 0, 2⟩ matProj).w ≠ 0 := by with_unfolding_all decide
  have h4 : (rowMul ⟨2, 3, 0, 1⟩ matProj).w = 0 := by with_unfolding_all rfl
  exact ⟨h0, (w_matmul_zero_w_skips_divide matProj ⟨2, 3, 0⟩ ⟨2, 3, 0, 1⟩).1 h0,
    h2, (w_matmul_zero_w_skips_divide matProj ⟨0, 0, 2⟩ ⟨2, 3, 0, 1⟩).2.1 h2,
    h4, (w_matmul_zero_w_skips_divide matProj ⟨2, 3, 0⟩ ⟨2, 3, 0, 1⟩).2.2.1 h4⟩

/-- Claim C5 (code bug): with the exact values cos(pi/2) = 0,
sin(pi/2) = 1, rotating the point (1, 0, 0) about y by pi/2 and then by
-pi/2 through the production rotation matrix and `w_matmul` returns
(1/2, 0, 0), not the original point: the stray `1.0` in the homogeneous
column of the y matrix (prod.py line 49) makes w = x + 1, so the
perspective divide halves the point.  The twin matrix in basics.py line 82
has the intended 0 there. -/
theorem rotate_y_roundtrip_fails :
    w_matmul (w_matmul ⟨1, 0, 0⟩ (rotYProd 0 1)) (rotYProd 0 (-1)) =
      ⟨1 / 2, 0, 0⟩ ∧
    (⟨1 / 2, 0, 0⟩ : Vec3) ≠ ⟨1, 0, 0⟩ := by
  constructor
  · with_unfolding_all rfl
  · with_unfolding_all decide

/-- Context (not a claim): with exact cosine and sine values satisfying
the circle identity, the x- and z-axis rotations of prod.py do round-trip
exactly — the y matrix is the only outlier. -/
theorem rotate_xz_roundtrip (c s : ℚ) (h : c ^ 2 + s ^ 2 = 1) (p : Vec3) :
    w_matmul (w_matmul p (rotXProd c s)) (rotXProd c (-s)) = p ∧
    w_matmul (w_matmul p (rotZProd c s)) (rotZProd c (-s)) = p := by
  obtain ⟨px, py, pz⟩ := p
  constructor
  · simp only [w_matmul, preTransform, rowMul, w_pad, rotXProd]
    norm_num
    constructor
    · linear_combination py * h
    · linear_combination pz * h
  · simp only [w_matmul, preTransform, rowMul, w_pad, rotZProd]
    norm_num
    constructor
    · linear_combination px * h
    · linear_combination py * h

/-- Claim C8 (corrected): `translate` with op `div` never raises — numpy
float division only warns — so the call returns normally with the
component-wise numpy division applied, and a zero divisor produces a
non-finite component (`inf`, `-inf` or `nan`), never an exception. -/
theorem translate_div_zero_no_raise (mesh : List Tri) (d : Vec3) :
    Mesh.translate mesh d "div" = .ok (mesh.map (triOp divF d)) ∧
    ∀ a : ℚ, (divF a 0).isFinite = false := by
  constructor
  · rfl
  · intro a
    unfold divF
    rw [if_pos rfl]
    split
    · rfl
    · split <;> rfl

/-- Witness for C8 on the empty mesh and a zero divisor. -/
theorem translate_div_zero_no_raise_witness :
    Mesh.translate [] ⟨0, 0, 0⟩ "div" =
      .ok (([] : List Tri).map (triOp divF ⟨0, 0, 0⟩)) ∧
    ∀ a : ℚ, (divF a 0).isFinite = false :=
  translate_div_zero_no_raise [] ⟨0, 0, 0⟩

/-- Counterexample to C8 as stated: dividing a concrete one-triangle mesh
by (1, 1, 0) returns `.ok` — the division-by-zero is absorbed into `inf`
z components, no error is raised or propagated. -/
theorem translate_div_zero_returns_ok :
    Mesh.translate [{ p1 := ⟨1, 1, 1⟩, p2 := ⟨2, 2, 2⟩, p3 := ⟨3, 3, 3⟩ }]
        ⟨1, 1, 0⟩ "div" =
      .ok [{ p1 := ⟨.fin 1, .fin 1, .pinf⟩, p2 := ⟨.fin 2, .fin 2, .pinf⟩,
             p3 := ⟨.fin 3, .fin 3, .pinf⟩ }] := by
  with_unfolding_all rfl

/-- Claim C10 (confirmed): `Line.noise` modifies only the point array —
division count, colors, alphas, color segment ranges, line width and the
whole repeat cursor state are untouched. -/
theorem noise_modifies_only_pts {C : Type} (l : Line C)
    (n3 : ℚ → ℚ → ℚ → ℚ) (scale : ℚ ⊕ (ℚ × ℚ)) (z : ℚ) :
    (l.noise n3 scale z).div = l.div ∧
    (l.noise n3 scale z).colors = l.colors ∧
    (l.noise n3 scale z).alphas = l.alphas ∧
    (l.noise n3 scale z).colorranges = l.colorranges ∧
    (l.noise n3 scale z).lineWidth = l.lineWidth ∧
    (l.noise n3 scale z).follow = l.follow ∧
    (l.noise n3 scale z).lead = l.lead ∧
    (l.noise n3 scale z).repeatFlag = l.repeatFlag :=
  ⟨rfl, rfl, rfl, rfl, rfl, rfl, rfl, rfl⟩

/-- Witness for C10 on a concrete line, noise field and scale. -/
theorem noise_modifies_only_pts_witness :
    (exLine5.noise (fun _ _ _ => 1) (.inl 1) 0).div = exLine5.div ∧
    (exLine5.noise (fun _ _ _ => 1) (.inl 1) 0).colors = exLine5.colors ∧
    (exLine5.noise (fun _ _ _ => 1) (.inl 1) 0).alphas = exLine5.alphas ∧
    (exLine5.noise (fun _ _ _ => 1) (.inl 1) 0).colorranges = exLine5.colorranges ∧
    (exLine5.noise (fun _ _ _ => 1) (.inl 1) 0).lineWidth = exLine5.lineWidth ∧
    (exLine5.noise (fun _ _ _ => 1) (.inl 1) 0).follow = exLine5.follow ∧
    (exLine5.noise (fun _ _ _ => 1) (.inl 1) 0).lead = exLine5.lead ∧
    (exLine5.noise (fun _ _ _ => 1) (.inl 1) 0).repeatFlag = exLine5.repeatFlag :=
  noise_modifies_only_pts exLine5 (fun _ _ _ => 1) (.inl 1) 0

/-- Helper for C3: while `_lead` is below `div`, each armed render advance
bumps only `_lead`. -/
theorem advance_phase1 {C : Type} (l : Line C) (h1 : l.repeatFlag = true)
    (h3 : l.lead = 0) :
    ∀ k, k ≤ l.div → drawAdvance^[k] l = { l with lead := k } := by
  intro k
  induction k with
  | zero =>
    intro _
    rw [Function.iterate_zero_apply, ← h3]
  | succ k ih =>
    intro hk
    have hk' : k < l.div := Nat.lt_of_succ_le hk
    rw [Function.iterate_succ_apply', ih (Nat.le_of_succ_le hk)]
    simp [drawAdvance, h1, hk']

/-- Helper for C3: once `_lead` sits at `div`, each armed render advance
bumps only `_follow`. -/
theorem advance_phase2 {C : Type} (l : Line C) (h1 : l.repeatFlag = true)
    (hf : l.follow = 0) (hl : l.lead = l.div) :
    ∀ k, k ≤ l.div → drawAdvance^[k] l = { l with follow := k } := by
  intro k
  induction k with
  | zero =>
    intro _
    rw [Function.iterate_zero_apply, ← hf]
  | succ k ih =>
    intro hk
    have hk' : k < l.div := Nat.lt_of_succ_le hk
    rw [Function.iterate_succ_apply', ih (Nat.le_of_succ_le hk)]
    simp [drawAdvance, h1, hl, hk']

/-- Claim C3 (corrected): from an armed cursor at `(follow, lead) = (0, 0)`,
`div` render advances bring `lead` to `div` (with `follow` still 0), `div`
more bring `follow` to `div` as well — at which point the cursors are both
at `div`, not yet reset — and the reset to `(0, 0)` happens on the single
further advance, so one full cycle takes `2 * div + 1` renders. -/
theorem repeat_cycle {C : Type} (l : Line C) (h1 : l.repeatFlag = true)
    (h2 : l.follow = 0) (h3 : l.lead = 0) (_hd : 2 ≤ l.div) :
    (drawAdvance^[l.div] l).lead = l.div ∧
    (drawAdvance^[l.div] l).follow = 0 ∧
    (drawAdvance^[2 * l.div] l).follow = l.div ∧
    (drawAdvance^[2 * l.div] l).lead = l.div ∧
    (drawAdvance^[2 * l.div + 1] l).follow = 0 ∧
    (drawAdvance^[2 * l.div + 1] l).lead = 0 := by
  have hp1 := advance_phase1 l h1 h3 l.div (le_refl _)
  have hs2 : drawAdvance^[2 * l.div] l = { l with lead := l.div, follow := l.div } := by
    rw [two_mul, Function.iterate_add_apply, hp1,
      advance_phase2 { l with lead := l.div } h1 h2 rfl l.div (le_refl _)]
  have hs3 : drawAdvance^[2 * l.div + 1] l = { l with lead := 0, follow := 0 } := by
    rw [Function.iterate_succ_apply', hs2]
    simp [drawAdvance, h1]
  refine ⟨?_, ?_, ?_, ?_, ?_, ?_⟩ <;> simp [hp1, hs2, hs3, h2]

/-- Witness for C3 on the armed `div = 5` line, together with the fact that
the line is a genuinely constructed one. -/
theorem repeat_cycle_witness :
    mkLine Unit (0, 0) (1, 1) 5 () 1 = .ok exLine5 ∧
    ((drawAdvance^[5] exLine5Armed).lead = 5 ∧
      (drawAdvance^[5] exLine5Armed).follow = 0 ∧
      (drawAdvance^[10] exLine5Armed).follow = 5 ∧
      (drawAdvance^[10] exLine5Armed).lead = 5 ∧
      (drawAdvance^[11] exLine5Armed).follow = 0 ∧
      (drawAdvance^[11] exLine5Armed).lead = 0) :=
  ⟨rfl, repeat_cycle exLine5Armed rfl rfl rfl (by decide)⟩

/-- Counterexample to C3 as stated: on the armed `div = 5` line, after 10
render advances `follow` has indeed reached 5, but the cursors have not
reset — `lead` is still 5, not 0; the reset only happens on advance 11. -/
theorem repeat_div5_after_ten_not_reset :
    (drawAdvance^[10] exLine5Armed).follow = 5 ∧
    (drawAdvance^[10] exLine5Armed).lead ≠ 0 := by
  constructor
  · decide
  · decide

/-- Helper for C7: each operation preserves `follow ≤ div` and
`lead ≤ div`. -/
theorem execOp_inv1 {C : Type} (l : Line C) (op : LineOp C)
    (hwf : opWFb l op = true) (h1 : l.follow ≤ l.div) (h2 : l.lead ≤ l.div) :
    (execOp l op).follow ≤ (execOp l op).div ∧
    (execOp l op).lead ≤ (execOp l op).div := by
  cases op with
  | draw =>
    dsimp only [execOp, drawAdvance]
    split_ifs with ha hb hc hd
    · exact ⟨h1, show l.lead + 1 ≤ l.div by omega⟩
    · exact ⟨show l.follow + 1 ≤ l.div by omega, h2⟩
    · exact ⟨Nat.zero_le _, Nat.zero_le _⟩
    · exact ⟨h1, h2⟩
    · exact ⟨h1, h2⟩
  | rep random r =>
    cases random with
    | true =>
      have hr : r < l.div := of_decide_eq_true hwf
      exact ⟨h1, Nat.le_of_lt hr⟩
    | false =>
      exact ⟨h1, Nat.zero_le _⟩
  | cpl other =>
    exact ⟨show l.follow ≤ l.div + other.div by omega,
      show l.lead + other.div ≤ l.div + other.div by omega⟩

/-- Helper for C7: on runs whose armings happen at `follow = 0`, each
operation preserves `follow ≤ lead` and `lead ≤ div`. -/
theorem execOp_inv2 {C : Type} (l : Line C) (op : LineOp C)
    (hwf : opWFb l op = true) (harm : opArmZerob l op = true)
    (h1 : l.follow ≤ l.lead) (h2 : l.lead ≤ l.div) :
    (execOp l op).follow ≤ (execOp l op).lead ∧
    (execOp l op).lead ≤ (execOp l op).div := by
  cases op with
  | draw =>
    dsimp only [execOp, drawAdvance]
    split_ifs with ha hb hc hd
    · exact ⟨show l.follow ≤ l.lead + 1 by omega, show l.lead + 1 ≤ l.div by omega⟩
    · exact ⟨show l.follow + 1 ≤ l.lead by omega, h2⟩
    · exact ⟨Nat.le_refl 0, Nat.zero_le _⟩
    · exact ⟨h1, h2⟩
    · exact ⟨h1, h2⟩
  | rep random r =>
    have hf : l.follow = 0 := of_decide_eq_true harm
    cases random with
    | true =>
      have hr : r < l.div := of_decide_eq_true hwf
      exact ⟨show l.follow ≤ r by omega, Nat.le_of_lt hr⟩
    | false =>
      exact ⟨show l.follow ≤ 0 by omega, Nat.zero_le _⟩
  | cpl other =>
    exact ⟨show l.follow ≤ l.lead + other.div by omega,
      show l.lead + other.div ≤ l.div + other.div by omega⟩

/-- Helper for C7: the `follow ≤ div` and `lead ≤ div` bounds hold after
any well-formed run. -/
theorem execOps_inv1 {C : Type} :
    ∀ (ops : List (LineOp C)) (l : Line C), opsWF l ops = true →
      l.follow ≤ l.div → l.lead ≤ l.div →
      (execOps l ops).follow ≤ (execOps l ops).div ∧
      (execOps l ops).lead ≤ (execOps l ops).div := by
  intro ops
  induction ops with
  | nil => exact fun l _ h1 h2 => ⟨h1, h2⟩
  | cons op rest ih =>
    intro l hwf h1 h2
    rw [opsWF, Bool.and_eq_true] at hwf
    have step := execOp_inv1 l op hwf.1 h1 h2
    exact ih (execOp l op) hwf.2 step.1 step.2

/-- Helper for C7: `follow ≤ lead ≤ div` holds after any well-formed run
whose armings all happen at `follow = 0`. -/
theorem execOps_inv2 {C : Type} :
    ∀ (ops : List (LineOp C)) (l : Line C), opsWF l ops = true →
      armsAtZero l ops = true → l.follow ≤ l.lead → l.lead ≤ l.div →
      (execOps l ops).follow ≤ (execOps l ops).lead ∧
      (execOps l ops).lead ≤ (execOps l ops).div := by
  intro ops
  induction ops with
  | nil => exact fun l _ _ h1 h2 => ⟨h1, h2⟩
  | cons op rest ih =>
    intro l hwf harm h1 h2
    rw [opsWF, Bool.and_eq_true] at hwf
    rw [armsAtZero, Bool.and_eq_true] at harm
    have step := execOp_inv2 l op hwf.1 harm.1 h1 h2
    exact ih (execOp l op) hwf.2 harm.2 step.1 step.2

/-- Claim C7 (corrected): from any constructed line, every well-formed
sequence of render advances, repeat armings and couplings keeps
`follow ≤ div` and `lead ≤ div`; the stronger `follow ≤ lead` additionally
holds whenever no `repeat` arming is issued while `follow > 0` — re-arming
mid-erase resets `lead` to 0 under a positive `follow` and breaks it. -/
theorem cursor_invariant_guarded {C : Type} (l0 : Line C)
    (hc : l0.follow = 0 ∧ l0.lead = l0.div ∧ l0.repeatFlag = false)
    (ops : List (LineOp C)) (hwf : opsWF l0 ops = true) :
    ((execOps l0 ops).follow ≤ (execOps l0 ops).div ∧
      (execOps l0 ops).lead ≤ (execOps l0 ops).div) ∧
    (armsAtZero l0 ops = true →
      (execOps l0 ops).follow ≤ (execOps l0 ops).lead) := by
  obtain ⟨h0, hld, -⟩ := hc
  constructor
  · exact execOps_inv1 ops l0 hwf (by omega) (le_of_eq hld)
  · intro harm
    exact (execOps_inv2 ops l0 hwf harm (by omega) (le_of_eq hld)).1

/-- Witness for C7: a constructed `div = 2` line through a run with a
random arming (sample 1), renders and a couple. -/
theorem cursor_invariant_guarded_witness :
    mkLine Unit (0, 0) (1, 1) 2 () 1 = .ok exLine2 ∧
    ((execOps exLine2 goodOps).follow ≤ (execOps exLine2 goodOps).div ∧
      (execOps exLine2 goodOps).lead ≤ (execOps exLine2 goodOps).div) ∧
    (execOps exLine2 goodOps).follow ≤ (execOps exLine2 goodOps).lead :=
  have h := cursor_invariant_guarded exLine2 ⟨rfl, rfl, rfl⟩ goodOps (by decide)
  ⟨rfl, h.1, h.2 (by decide)⟩

/-- Counterexample to C7 as stated: on a constructed `div = 2` line, arm,
render three times (cursor reaches `(follow, lead) = (1, 2)`), then re-arm:
`lead` is reset to 0 while `follow` is 1, violating `follow ≤ lead`. -/
theorem cursor_invariant_rearm_violation :
    mkLine Unit (0, 0) (1, 1) 2 () 1 = .ok exLine2 ∧
    opsWF exLine2 badOps = true ∧
    ¬ (execOps exLine2 badOps).follow ≤ (execOps exLine2 badOps).lead := by
  refine ⟨rfl, ?_, ?_⟩
  · decide
  · decide

/-- Length of the exact linspace. -/
theorem length_linspaceQ (a b : ℚ) (n : ℕ) : (linspaceQ a b n).length = n := by
  unfold linspaceQ
  rw [List.length_map, List.length_range]

/-- Closed form of the exact linspace samples. -/
theorem linspaceQ_getElem (a b : ℚ) (n k : ℕ)
    (h : k < (linspaceQ a b n).length) :
    (linspaceQ a b n)[k] = a + k * (b - a) / ((n : ℚ) - 1) := by
  unfold linspaceQ
  rw [List.getElem_map, List.getElem_range]

/-- Truncation toward zero is monotone on nonnegative arguments. -/
theorem pyInt_mono_nonneg {a b : ℚ} (ha : 0 ≤ a) (hab : a ≤ b) :
    pyInt a ≤ pyInt b := by
  have h1 : ¬ a < 0 := by linarith
  have h2 : ¬ b < 0 := by linarith
  unfold pyInt
  rw [if_neg h1, if_neg h2]
  exact Int.floor_le_floor hab

/-- Helper for C1: the color segment list `gradient` builds, in closed
form — the `step - 1` adjacent pairs of the truncated
`np.linspace(0, div, step)`. -/
theorem gradient_colorranges_eq {C : Type} (rangeTo : C → C → ℕ → List C)
    (hrt : ∀ a b n, (rangeTo a b n).length = n) (l : Line C) (c : C)
    (step : ℕ) (alpha : ℚ × ℚ) :
    (l.gradient rangeTo c step alpha).colorranges =
      (List.range (step - 1)).map (fun k : ℕ =>
        (pyInt ((k : ℚ) * l.div / ((step : ℚ) - 1)),
          pyInt (((k : ℚ) + 1) * l.div / ((step : ℚ) - 1)))) := by
  have e1 : (l.gradient rangeTo c step alpha).colorranges =
      (((rangeTo (l.colors.getLastD c) c step).zip
          (linspaceQ alpha.1 alpha.2 step)).zip
        ((linspaceQ 0 l.div step).zip (linspaceQ 0 l.div step).tail)).map
        (fun z => (pyInt z.2.1, pyInt z.2.2)) := rfl
  rw [e1]
  apply List.ext_getElem
  · simp only [List.length_map, List.length_zip, List.length_tail,
      length_linspaceQ, hrt, List.length_range]
    omega
  · intro k h1 h2
    simp only [List.length_map, List.length_zip, List.length_tail,
      length_linspaceQ, hrt] at h1
    have hlen : k < (linspaceQ 0 (l.div : ℚ) step).length := by
      rw [length_linspaceQ]
      omega
    have hlen1 : k + 1 < (linspaceQ 0 (l.div : ℚ) step).length := by
      rw [length_linspaceQ]
      omega
    simp only [List.getElem_map, List.getElem_zip, List.getElem_tail,
      List.getElem_range]
    rw [linspaceQ_getElem 0 l.div step k hlen,
      linspaceQ_getElem 0 l.div step (k + 1) hlen1]
    have c1 : (0 : ℚ) + (k : ℚ) * ((l.div : ℚ) - 0) / ((step : ℚ) - 1) =
        (k : ℚ) * l.div / ((step : ℚ) - 1) := by ring
    have c2 : (0 : ℚ) + ((k + 1 : ℕ) : ℚ) * ((l.div : ℚ) - 0) / ((step : ℚ) - 1) =
        ((k : ℚ) + 1) * l.div / ((step : ℚ) - 1) := by
      push_cast
      ring
    rw [c1, c2]

/-- Claim C1 (corrected): `gradient(targetColor, steps, alphaRange)`
produces `steps - 1` (not `steps`) contiguous color segments; the k-th
segment is `[int(k*div/(steps-1)), int((k+1)*div/(steps-1)))`, so
consecutive boundaries agree, the first starts at 0, the last ends at
`div`, and every segment is nonempty-or-degenerate in order — but the
widths need not be equal (`int` truncation). -/
theorem gradient_partitions_linspace {C : Type} (rangeTo : C → C → ℕ → List C)
    (hrt : ∀ a b n, (rangeTo a b n).length = n) (l : Line C) (c : C)
    (step : ℕ) (hs : 2 ≤ step) (alpha : ℚ × ℚ) :
    (l.gradient rangeTo c step alpha).colorranges.length = step - 1 ∧
    (∀ k, k < step - 1 →
      (l.gradient rangeTo c step alpha).colorranges.getD k (0, 0) =
        (pyInt (k * l.div / ((step : ℚ) - 1)),
          pyInt ((k + 1) * l.div / ((step : ℚ) - 1)))) ∧
    List.Chain' (fun p q => p.2 = q.1)
      (l.gradient rangeTo c step alpha).colorranges ∧
    ((l.gradient rangeTo c step alpha).colorranges.headD (0, 0)).1 = 0 ∧
    ((l.gradient rangeTo c step alpha).colorranges.getLastD (0, 0)).2 = l.div ∧
    ∀ p ∈ (l.gradient rangeTo c step alpha).colorranges, p.1 ≤ p.2 := by
  have h2q : (2 : ℚ) ≤ (step : ℚ) := by exact_mod_cast hs
  have hpos : (0 : ℚ) < (step : ℚ) - 1 := by linarith
  have hstep : ((step : ℚ) - 1) ≠ 0 := ne_of_gt hpos
  obtain ⟨m, hm⟩ : ∃ m, step - 1 = m + 1 := ⟨step - 2, by omega⟩
  rw [gradient_colorranges_eq rangeTo hrt l c step alpha]
  refine ⟨by simp, ?_, ?_, ?_, ?_, ?_⟩
  · intro k hk
    rw [List.getD_eq_getElem _ _ (by simpa using hk)]
    simp
  · rw [List.chain'_map, hm, List.chain'_range_succ]
    intro k _
    show pyInt (((k : ℚ) + 1) * l.div / ((step : ℚ) - 1)) =
      pyInt (((k.succ : ℕ) : ℚ) * l.div / ((step : ℚ) - 1))
    congr 1
    push_cast
    ring
  · rw [hm, List.range_succ_eq_map]
    simp [pyInt]
  · rw [hm]
    have hr : List.range (m + 1) = List.range m ++ [m] := List.range_succ m
    rw [hr, List.map_append]
    simp only [List.map_cons, List.map_nil, List.getLastD_concat]
    show pyInt (((m : ℚ) + 1) * l.div / ((step : ℚ) - 1)) = (l.div : ℤ)
    have hm' : ((m : ℚ) + 1) = (step : ℚ) - 1 := by
      have : (step : ℚ) = ((m + 2 : ℕ) : ℚ) := by exact_mod_cast congrArg Nat.cast (by omega : step = m + 2)
      rw [this]
      push_cast
      ring
    rw [hm', mul_comm, mul_div_assoc, div_self hstep, mul_one]
    have hnn : ¬ ((l.div : ℚ) < 0) := (Nat.cast_nonneg l.div).not_lt
    unfold pyInt
    rw [if_neg hnn, Int.floor_natCast]
  · intro p hp
    rw [List.mem_map] at hp
    obtain ⟨k, -, hk⟩ := hp
    rw [← hk]
    have hdz : (0 : ℚ) ≤ (l.div : ℚ) := Nat.cast_nonneg l.div
    have hkz : (0 : ℚ) ≤ (k : ℚ) := Nat.cast_nonneg k
    refine pyInt_mono_nonneg
      (div_nonneg (mul_nonneg hkz hdz) (le_of_lt hpos)) ?_
    have hq : (k : ℚ) * l.div ≤ ((k : ℚ) + 1) * l.div := by nlinarith
    exact (div_le_div_iff_of_pos_right hpos).mpr hq

/-- Witness for C1 at the `div = 100`, `steps = 4` instance of the spec. -/
theorem gradient_partitions_linspace_witness :
    (exLine100.gradient unitRangeTo () 4 (1, 1)).colorranges.length = 4 - 1 ∧
    (∀ k, k < 4 - 1 →
      (exLine100.gradient unitRangeTo () 4 (1, 1)).colorranges.getD k (0, 0) =
        (pyInt (k * exLine100.div / ((4 : ℚ) - 1)),
          pyInt ((k + 1) * exLine100.div / ((4 : ℚ) - 1)))) ∧
    List.Chain' (fun p q => p.2 = q.1)
      (exLine100.gradient unitRangeTo () 4 (1, 1)).colorranges ∧
    ((exLine100.gradient unitRangeTo () 4 (1, 1)).colorranges.headD (0, 0)).1 = 0 ∧
    ((exLine100.gradient unitRangeTo () 4 (1, 1)).colorranges.getLastD (0, 0)).2 = exLine100.div ∧
    ∀ p ∈ (exLine100.gradient unitRangeTo () 4 (1, 1)).colorranges, p.1 ≤ p.2 :=
  gradient_partitions_linspace unitRangeTo
    (fun _ _ n => by simp [unitRangeTo]) exLine100 () 4 (by decide) (1, 1)

/-- Counterexample to C1 as stated: on the constructed `div = 100` line,
`gradient` with `steps = 4` yields the three ranges
`[0,33), [33,66), [66,100)` — not four equal-width ranges
`[0,25), [25,50), [50,75), [75,100)`. -/
theorem gradient_div100_steps4_three_ranges :
    mkLine Unit (0, 0) (1, 1) 100 () 1 = .ok exLine100 ∧
    (exLine100.gradient unitRangeTo () 4 (1, 1)).colorranges =
      [(0, 33), (33, 66), (66, 100)] ∧
    (exLine100.gradient unitRangeTo () 4 (1, 1)).colorranges ≠
      [(0, 25), (25, 50), (50, 75), (75, 100)] := by
  refine ⟨rfl, ?_, ?_⟩
  · with_unfolding_all rfl
  · with_unfolding_all decide

/-- Helper for C6: inserting into the accumulator is a permutation of
consing. -/
theorem insOne_perm (p : ℕ × ℚ) (acc : List (ℕ × ℚ)) :
    (insOne p acc).Perm (p :: acc) := by
  induction acc with
  | nil => exact List.Perm.refl _
  | cons q rest ih =>
    by_cases hq : q.2 ≤ p.2
    · rw [insOne, if_pos hq]
      exact (ih.cons q).trans (List.Perm.swap p q rest)
    · rw [insOne, if_neg hq]

/-- Helper for C6: inserting an entry whose payload dominates the
accumulator's preserves strict (key, payload)-lexicographic sortedness. -/
theorem insOne_pairwise {p : ℕ × ℚ} {acc : List (ℕ × ℚ)}
    (h : List.Pairwise pairLt acc) (hidx : ∀ q ∈ acc, q.1 < p.1) :
    List.Pairwise pairLt (insOne p acc) := by
  induction acc with
  | nil => simp [insOne]
  | cons q rest ih =>
    rw [List.pairwise_cons] at h
    by_cases hq : q.2 ≤ p.2
    · rw [insOne, if_pos hq]
      rw [List.pairwise_cons]
      constructor
      · intro x hx
        rcases List.mem_cons.mp (((insOne_perm p rest).mem_iff).mp hx) with hx' | hx'
        · subst hx'
          rcases lt_or_eq_of_le hq with hlt | heq
          · exact Or.inl hlt
          · exact Or.inr ⟨heq, hidx q (List.mem_cons_self q rest)⟩
        · exact h.1 x hx'
      · exact ih h.2 (fun r hr => hidx r (List.mem_cons_of_mem q hr))
    · rw [insOne, if_neg hq]
      have hpq : p.2 < q.2 := by linarith [le_of_not_le hq]
      rw [List.pairwise_cons]
      constructor
      · intro x hx
        rcases List.mem_cons.mp hx with hx' | hx'
        · subst hx'
          exact Or.inl hpq
        · have hqx := h.1 x hx'
          have hqx2 : q.2 ≤ x.2 := by
            rcases hqx with hlt | ⟨heq, -⟩
            · exact le_of_lt hlt
            · exact le_of_eq heq
          exact Or.inl (lt_of_lt_of_le hpq hqx2)
      · rw [List.pairwise_cons]
        exact ⟨h.1, h.2⟩

/-- Helper for C6: the insertion fold keeps the accumulator
lexicographically sorted when payload order follows arrival order. -/
theorem foldl_insOne_pairwise :
    ∀ (l acc : List (ℕ × ℚ)), List.Pairwise pairLt acc →
      (∀ q ∈ acc, ∀ r ∈ l, q.1 < r.1) →
      List.Pairwise (fun a b => a.1 < b.1) l →
      List.Pairwise pairLt (l.foldl (fun a p => insOne p a) acc) := by
  intro l
  induction l with
  | nil => exact fun acc h _ _ => h
  | cons p rest ih =>
    intro acc h hcross hfst
    rw [List.pairwise_cons] at hfst
    rw [List.foldl_cons]
    refine ih (insOne p acc)
      (insOne_pairwise h (fun q hq => hcross q hq p (List.mem_cons_self p rest)))
      ?_ hfst.2
    intro q hq r hr
    rcases List.mem_cons.mp (((insOne_perm p acc).mem_iff).mp hq) with hq' | hq'
    · subst hq'
      exact hfst.1 r hr
    · exact hcross q hq' r (List.mem_cons_of_mem p hr)

/-- Helper for C6: the insertion fold permutes its input. -/
theorem foldl_insOne_perm :
    ∀ (l acc : List (ℕ × ℚ)),
      (l.foldl (fun a p => insOne p a) acc).Perm (l ++ acc) := by
  intro l
  induction l with
  | nil => exact fun acc => List.Perm.refl _
  | cons p rest ih =>
    intro acc
    rw [List.foldl_cons]
    refine (ih (insOne p acc)).trans ?_
    refine (List.Perm.append_left rest (insOne_perm p acc)).trans ?_
    exact List.perm_middle

/-- Helper for C6: the payloads of `pairsOf` arrive in strictly increasing
order. -/
theorem pairsOf_fst_pairwise (v : List ℚ) :
    List.Pairwise (fun a b => a.1 < b.1) (pairsOf v) := by
  unfold pairsOf
  rw [List.pairwise_map]
  exact List.pairwise_lt_range v.length

/-- Helper for C6: every entry of `pairsOf` carries the key of its
payload index. -/
theorem pairsOf_mem {v : List ℚ} {q : ℕ × ℚ} (hq : q ∈ pairsOf v) :
    q.2 = v.getD q.1 0 ∧ q.1 < v.length := by
  unfold pairsOf at hq
  rw [List.mem_map] at hq
  obtain ⟨i, hi, rfl⟩ := hq
  exact ⟨rfl, List.mem_range.mp hi⟩

/-- Helper for C6: the small-array argsort path is a permutation of the
index range. -/
theorem smallArgsort_perm (v : List ℚ) :
    (smallArgsort v).Perm (List.range v.length) := by
  have hperm : (insSortPairs (pairsOf v)).Perm (pairsOf v) := by
    have := foldl_insOne_perm (pairsOf v) []
    rwa [List.append_nil] at this
  have hmap := hperm.map Prod.fst
  unfold smallArgsort insSortPairs
  refine hmap.trans ?_
  unfold pairsOf
  rw [List.map_map]
  have : (Prod.fst ∘ fun i : ℕ => (i, v.getD i 0)) = id := rfl
  rw [this, List.map_id]

/-- Helper for C6: the small-array argsort path is lexicographically
sorted — keys ascend, and equal keys keep ascending indices. -/
theorem smallArgsort_pairwise (v : List ℚ) :
    List.Pairwise (fun i j => v.getD i 0 < v.getD j 0 ∨
      (v.getD i 0 = v.getD j 0 ∧ i < j)) (smallArgsort v) := by
  have hp : List.Pairwise pairLt (insSortPairs (pairsOf v)) :=
    foldl_insOne_pairwise (pairsOf v) [] (List.Pairwise.nil)
      (fun q hq => absurd hq (List.not_mem_nil q)) (pairsOf_fst_pairwise v)
  have hperm : (insSortPairs (pairsOf v)).Perm (pairsOf v) := by
    have := foldl_insOne_perm (pairsOf v) []
    rwa [List.append_nil] at this
  have hmem : ∀ q ∈ insSortPairs (pairsOf v), q.2 = v.getD q.1 0 :=
    fun q hq => (pairsOf_mem (hperm.mem_iff.mp hq)).1
  unfold smallArgsort
  rw [List.pairwise_map]
  refine hp.imp_of_mem ?_
  intro p q hpmem hqmem hpq
  rcases hpq with hlt | ⟨heq, hidx⟩
  · left
    rw [← hmem p hpmem, ← hmem q hqmem]
    exact hlt
  · right
    rw [← hmem p hpmem, ← hmem q hqmem]
    exact ⟨heq, hidx⟩

/-- Helper for C6: the sort key list evaluates to the mean z of the indexed
triangle. -/
theorem meanZs_getD {mesh : List Tri} {i : ℕ} (h : i < mesh.length) :
    (meanZs mesh).getD i 0 = meanZ (mesh.getD i triDefault) := by
  unfold meanZs
  rw [List.getD_eq_getElem _ _ (by rw [List.length_map]; exact h),
    List.getD_eq_getElem _ _ h, List.getElem_map]

/-- Reading in bounds is the array element. -/
theorem aGet_eq_getElem {t : Array ℕ} {i : ℕ} (h : i < t.size) :
    aGet t i = t[i] := by
  unfold aGet Array.getD
  rw [dif_pos h]
  rfl

/-- Reading a `setD` write at a valid index. -/
theorem aGet_setD_lt (t : Array ℕ) {i : ℕ} (x : ℕ) (hi : i < t.size) (y : ℕ) :
    aGet (t.setD i x) y = if y = i then x else aGet t y := by
  by_cases hy : y < t.size
  · have hy' : y < (t.setD i x).size := by rw [Array.size_setD]; exact hy
    rw [aGet_eq_getElem hy', aGet_eq_getElem hy]
    simp only [Array.setD]
    split
    · rw [Array.getElem_set]
      by_cases hyi : y = i
      · rw [if_pos hyi.symm, if_pos hyi]
      · rw [if_neg (fun h => hyi h.symm), if_neg hyi]
    · exact absurd hi (by assumption)
  · have hy' : ¬ y < (t.setD i x).size := by rw [Array.size_setD]; exact hy
    have hne : ¬ y = i := fun h => hy (h ▸ hi)
    unfold aGet Array.getD
    rw [dif_neg hy', if_neg hne, dif_neg hy]

/-- `aSwap` keeps the size. -/
theorem aSwap_size (t : Array ℕ) (i j : ℕ) : (aSwap t i j).size = t.size := by
  unfold aSwap
  rw [Array.size_setD, Array.size_setD]

/-- Pointwise description of `aSwap` at valid indices. -/
theorem aGet_aSwap (t : Array ℕ) {i j : ℕ} (hi : i < t.size)
    (hj : j < t.size) (y : ℕ) :
    aGet (aSwap t i j) y =
      if y = j then aGet t i else if y = i then aGet t j else aGet t y := by
  unfold aSwap
  rw [aGet_setD_lt _ _ (by simpa [Array.size_setD] using hj) y]
  by_cases hyj : y = j
  · rw [if_pos hyj, if_pos hyj]
  · rw [if_neg hyj, if_neg hyj, aGet_setD_lt _ _ hi y]

/-- Pointwise description of the keys after `aSwap`. -/
theorem kGet_aSwap (v : Array ℚ) (t : Array ℕ) {i j : ℕ} (hi : i < t.size)
    (hj : j < t.size) (y : ℕ) :
    kGet v (aSwap t i j) y =
      if y = j then kGet v t i else if y = i then kGet v t j
      else kGet v t y := by
  unfold kGet
  rw [aGet_aSwap t hi hj y]
  by_cases hyj : y = j
  · rw [if_pos hyj, if_pos hyj]
  · rw [if_neg hyj, if_neg hyj]
    by_cases hyi : y = i
    · rw [if_pos hyi, if_pos hyi]
    · rw [if_neg hyi, if_neg hyi]

/-- Length of a subrange read. -/
theorem length_segOf (t : Array ℕ) (pl len : ℕ) :
    (segOf t pl len).length = len := by
  unfold segOf
  rw [List.length_map, List.length_range]

/-- Elements of a subrange read. -/
theorem segOf_getElem (t : Array ℕ) (pl len k : ℕ)
    (h : k < (segOf t pl len).length) :
    (segOf t pl len)[k] = aGet t (pl + k) := by
  unfold segOf
  rw [List.getElem_map, List.getElem_range]

/-- Membership in a subrange read. -/
theorem mem_segOf {t : Array ℕ} {pl len e : ℕ} :
    e ∈ segOf t pl len ↔ ∃ k, k < len ∧ aGet t (pl + k) = e := by
  unfold segOf
  simp [List.mem_map, List.mem_range]

/-- Two arrays agreeing pointwise on a window have the same subrange
read. -/
theorem segOf_congr {t' t : Array ℕ} {pl len : ℕ}
    (h : ∀ k, k < len → aGet t' (pl + k) = aGet t (pl + k)) :
    segOf t' pl len = segOf t pl len := by
  unfold segOf
  exact List.map_congr_left (fun k hk => h k (List.mem_range.mp hk))

/-- Splitting a subrange read at an interior point. -/
theorem segOf_append (t : Array ℕ) (pl a b : ℕ) :
    segOf t pl (a + b) = segOf t pl a ++ segOf t (pl + a) b := by
  unfold segOf
  rw [List.range_add, List.map_append, List.map_map]
  congr 1
  exact List.map_congr_left (fun x _ => by rw [Function.comp_apply, Nat.add_assoc])

/-- Moving the element at position `m` to the front while writing `a`
into its place is a permutation of consing `a`. -/
theorem cons_set_perm {α : Type} :
    ∀ (t : List α) (m : ℕ) (hm : m < t.length) (a : α),
      ((t.get ⟨m, hm⟩) :: t.set m a).Perm (a :: t) := by
  intro t
  induction t with
  | nil => intro m hm; exact absurd hm (by simp)
  | cons b t' ih =>
    intro m hm a
    cases m with
    | zero => exact List.Perm.swap a b t'
    | succ m' =>
      have hm' : m' < t'.length := by simpa using hm
      show ((t'.get ⟨m', hm'⟩) :: b :: t'.set m' a).Perm (a :: b :: t')
      exact ((List.Perm.swap b _ _).trans
        (List.Perm.cons b (ih m' hm' a))).trans (List.Perm.swap a b t')

/-- Writing each of two positions' values into the other is a
permutation. -/
theorem set_set_get_perm {α : Type} :
    ∀ (l : List α) (i j : ℕ) (hi : i < l.length) (hj : j < l.length),
      ((l.set i (l.get ⟨j, hj⟩)).set j (l.get ⟨i, hi⟩)).Perm l := by
  intro l
  induction l with
  | nil => intro i j hi; exact absurd hi (by simp)
  | cons b t ih =>
    intro i j hi hj
    cases i with
    | zero =>
      cases j with
      | zero =>
        show (((b :: t).set 0 b).set 0 b).Perm (b :: t)
        rw [List.set_set]
        exact List.Perm.refl _
      | succ m =>
        have hm : m < t.length := by simpa using hj
        show ((t.get ⟨m, hm⟩) :: t.set m b).Perm (b :: t)
        exact cons_set_perm t m hm b
    | succ m =>
      cases j with
      | zero =>
        have hm : m < t.length := by simpa using hi
        show ((t.get ⟨m, hm⟩) :: t.set m b).Perm (b :: t)
        exact cons_set_perm t m hm b
      | succ m' =>
        have hm : m < t.length := by simpa using hi
        have hm' : m' < t.length := by simpa using hj
        show (b :: ((t.set m (t.get ⟨m', hm'⟩)).set m' (t.get ⟨m, hm⟩))).Perm (b :: t)
        exact List.Perm.cons b (ih m m' hm hm')

/-- Variant of `set_set_get_perm` phrased with the written values given
as equations. -/
theorem set_set_perm_vals {α : Type} (l : List α) (i j : ℕ)
    (hi : i < l.length) (hj : j < l.length) (a b : α)
    (ha : l.get ⟨i, hi⟩ = a) (hb : l.get ⟨j, hj⟩ = b) :
    ((l.set i b).set j a).Perm l := by
  subst ha
  subst hb
  exact set_set_get_perm l i j hi hj

/-- Swapping two positions inside a window permutes its subrange read. -/
theorem segOf_aSwap_perm (t : Array ℕ) {pl pr i j : ℕ} (hpr : pr < t.size)
    (h1 : pl ≤ i) (h2 : i ≤ pr) (h3 : pl ≤ j) (h4 : j ≤ pr) :
    (segOf (aSwap t i j) pl (pr + 1 - pl)).Perm (segOf t pl (pr + 1 - pl)) := by
  have hi : i < t.size := lt_of_le_of_lt h2 hpr
  have hj : j < t.size := lt_of_le_of_lt h4 hpr
  have hiL : i - pl < (segOf t pl (pr + 1 - pl)).length := by
    rw [length_segOf]; omega
  have hjL : j - pl < (segOf t pl (pr + 1 - pl)).length := by
    rw [length_segOf]; omega
  have egi : (segOf t pl (pr + 1 - pl)).get ⟨i - pl, hiL⟩ = aGet t i := by
    have h0 : (segOf t pl (pr + 1 - pl)).get ⟨i - pl, hiL⟩ =
        aGet t (pl + (i - pl)) := by
      rw [List.get_eq_getElem]
      exact segOf_getElem t pl (pr + 1 - pl) (i - pl) hiL
    rw [h0]
    congr 1
    omega
  have egj : (segOf t pl (pr + 1 - pl)).get ⟨j - pl, hjL⟩ = aGet t j := by
    have h0 : (segOf t pl (pr + 1 - pl)).get ⟨j - pl, hjL⟩ =
        aGet t (pl + (j - pl)) := by
      rw [List.get_eq_getElem]
      exact segOf_getElem t pl (pr + 1 - pl) (j - pl) hjL
    rw [h0]
    congr 1
    omega
  have e : segOf (aSwap t i j) pl (pr + 1 - pl) =
      ((segOf t pl (pr + 1 - pl)).set (i - pl) (aGet t j)).set (j - pl)
        (aGet t i) := by
    apply List.ext_getElem
    · rw [length_segOf, List.length_set, List.length_set, length_segOf]
    · intro k hk1 hk2
      have hkb : k < pr + 1 - pl := by rwa [length_segOf] at hk1
      rw [segOf_getElem, aGet_aSwap t hi hj, List.getElem_set,
        List.getElem_set]
      by_cases hkj : pl + k = j
      · rw [if_pos hkj, if_pos (show j - pl = k by omega)]
      · rw [if_neg hkj, if_neg (show ¬ j - pl = k by omega)]
        by_cases hki : pl + k = i
        · rw [if_pos hki, if_pos (show i - pl = k by omega)]
        · rw [if_neg hki, if_neg (show ¬ i - pl = k by omega), segOf_getElem]
  rw [e]
  exact set_set_perm_vals _ (i - pl) (j - pl) hiL hjL _ _ egi egj

/-- The upward partition scan stops at the first position past `pi` whose
key is at least the pivot; a stopper position `q` with key at least the
pivot bounds it. -/
theorem scanUp_spec (v : Array ℚ) (t : Array ℕ) (vp : ℚ) :
    ∀ (fuel pi q : ℕ), pi < q → ¬ kGet v t q < vp → q - pi ≤ fuel →
      pi < scanUp v t vp pi fuel ∧ scanUp v t vp pi fuel ≤ q ∧
      ¬ kGet v t (scanUp v t vp pi fuel) < vp ∧
      ∀ x, pi < x → x < scanUp v t vp pi fuel → kGet v t x < vp := by
  intro fuel
  induction fuel with
  | zero => intro pi q h1 _ h3; omega
  | succ fuel ih =>
    intro pi q h1 h2 h3
    rw [scanUp]
    by_cases hc : kGet v t (pi + 1) < vp
    · rw [if_pos hc]
      have hne : pi + 1 ≠ q := fun h => h2 (h ▸ hc)
      have h1' : pi + 1 < q := by omega
      obtain ⟨c1, c2, c3, c4⟩ := ih (pi + 1) q h1' h2 (by omega)
      refine ⟨by omega, c2, c3, ?_⟩
      intro x hx1 hx2
      by_cases hx : x = pi + 1
      · exact hx ▸ hc
      · exact c4 x (by omega) hx2
    · rw [if_neg hc]
      exact ⟨by omega, by omega, hc, fun x hx1 hx2 => absurd hx2 (by omega)⟩

/-- The downward partition scan stops at the first position below `pj`
whose key is at most the pivot; a stopper position `q` with key at most
the pivot bounds it. -/
theorem scanDown_spec (v : Array ℚ) (t : Array ℕ) (vp : ℚ) :
    ∀ (fuel pj q : ℕ), q < pj → ¬ vp < kGet v t q → pj - q ≤ fuel →
      scanDown v t vp pj fuel < pj ∧ q ≤ scanDown v t vp pj fuel ∧
      ¬ vp < kGet v t (scanDown v t vp pj fuel) ∧
      ∀ x, scanDown v t vp pj fuel < x → x < pj → vp < kGet v t x := by
  intro fuel
  induction fuel with
  | zero => intro pj q h1 _ h3; omega
  | succ fuel ih =>
    intro pj q h1 h2 h3
    rw [scanDown]
    by_cases hc : vp < kGet v t (pj - 1)
    · rw [if_pos hc]
      have hne : pj - 1 ≠ q := fun h => h2 (h ▸ hc)
      have h1' : q < pj - 1 := by omega
      obtain ⟨c1, c2, c3, c4⟩ := ih (pj - 1) q h1' h2 (by omega)
      refine ⟨by omega, c2, c3, ?_⟩
      intro x hx1 hx2
      by_cases hx : x = pj - 1
      · exact hx ▸ hc
      · exact c4 x hx1 (by omega)
    · rw [if_neg hc]
      exact ⟨by omega, by omega, hc, fun x hx1 hx2 => absurd hx2 (by omega)⟩

/-- The Hoare partition loop: starting from a state whose left flank is
at most the pivot and whose right flank is at least it, the loop keeps the
array window a permutation, touches nothing outside `(pl, pr - 1)`, and
yields a crossing point splitting `[pl, pr - 1]` into keys at most the
pivot and keys at least it. -/
theorem partLoop_spec (v : Array ℚ) (vp : ℚ) (pl pr N : ℕ) :
    ∀ (fuel : ℕ) (t : Array ℕ) (pi pj : ℕ),
      t.size = N → pr < N →
      pl ≤ pi → pi < pj → pj ≤ pr - 1 →
      (∀ x, pl ≤ x → x ≤ pi → kGet v t x ≤ vp) →
      (∀ x, pj ≤ x → x ≤ pr - 1 → vp ≤ kGet v t x) →
      pj - pi ≤ fuel →
      (partLoop v t vp pi pj fuel).1.size = N ∧
      (∀ x, x ≤ pl ∨ pr - 1 ≤ x →
        aGet (partLoop v t vp pi pj fuel).1 x = aGet t x) ∧
      (segOf (partLoop v t vp pi pj fuel).1 pl (pr + 1 - pl)).Perm
        (segOf t pl (pr + 1 - pl)) ∧
      pl < (partLoop v t vp pi pj fuel).2 ∧
      (partLoop v t vp pi pj fuel).2 ≤ pr - 1 ∧
      (∀ x, pl ≤ x → x < (partLoop v t vp pi pj fuel).2 →
        kGet v (partLoop v t vp pi pj fuel).1 x ≤ vp) ∧
      (∀ x, (partLoop v t vp pi pj fuel).2 ≤ x → x ≤ pr - 1 →
        vp ≤ kGet v (partLoop v t vp pi pj fuel).1 x) := by
  intro fuel
  induction fuel with
  | zero => intro t pi pj _ _ _ h4 _ _ _ h8; omega
  | succ fuel ih =>
    intro t pi pj hs hpr h3 h4 h5 hL hR h8
    obtain ⟨u1, u2, u3, u4⟩ :=
      scanUp_spec v t vp t.size pi pj h4 ((hR pj le_rfl h5).not_lt) (by omega)
    obtain ⟨d1, d2, d3, d4⟩ :=
      scanDown_spec v t vp t.size pj pi h4 ((hL pi h3 le_rfl).not_lt) (by omega)
    rw [partLoop]
    by_cases hexit : scanDown v t vp pj t.size ≤ scanUp v t vp pi t.size
    · rw [if_pos hexit]
      refine ⟨hs, fun x _ => rfl, List.Perm.refl _, by omega, by omega, ?_, ?_⟩
      · intro x hx1 hx2
        by_cases hxp : x ≤ pi
        · exact hL x hx1 hxp
        · exact (u4 x (by omega) hx2).le
      · intro x hx1 hx2
        rcases eq_or_lt_of_le hx1 with heq | hgt
        · exact heq ▸ le_of_not_lt u3
        · by_cases hxj : pj ≤ x
          · exact hR x hxj hx2
          · exact (d4 x (by omega) (by omega)).le
    · rw [if_neg hexit]
      have hlt : scanUp v t vp pi t.size < scanDown v t vp pj t.size := by
        omega
      have hi1 : scanUp v t vp pi t.size < t.size := by omega
      have hj1 : scanDown v t vp pj t.size < t.size := by omega
      have hLnew : ∀ x, pl ≤ x →
          x ≤ scanUp v t vp pi t.size →
          kGet v (aSwap t (scanUp v t vp pi t.size)
            (scanDown v t vp pj t.size)) x ≤ vp := by
        intro x hx1 hx2
        rw [kGet_aSwap v t hi1 hj1 x,
          if_neg (show ¬ x = scanDown v t vp pj t.size by omega)]
        by_cases hxe : x = scanUp v t vp pi t.size
        · rw [if_pos hxe]
          exact le_of_not_lt d3
        · rw [if_neg hxe]
          by_cases hxp : x ≤ pi
          · exact hL x hx1 hxp
          · exact (u4 x (by omega) (by omega)).le
      have hRnew : ∀ x, scanDown v t vp pj t.size ≤ x →
          x ≤ pr - 1 →
          vp ≤ kGet v (aSwap t (scanUp v t vp pi t.size)
            (scanDown v t vp pj t.size)) x := by
        intro x hx1 hx2
        rw [kGet_aSwap v t hi1 hj1 x]
        by_cases hxe : x = scanDown v t vp pj t.size
        · rw [if_pos hxe]
          exact le_of_not_lt u3
        · rw [if_neg hxe,
            if_neg (show ¬ x = scanUp v t vp pi t.size by omega)]
          by_cases hxj : pj ≤ x
          · exact hR x hxj hx2
          · exact (d4 x (by omega) (by omega)).le
      obtain ⟨c1, c2, c3, c4, c5, c6, c7⟩ :=
        ih (aSwap t (scanUp v t vp pi t.size) (scanDown v t vp pj t.size))
          (scanUp v t vp pi t.size) (scanDown v t vp pj t.size)
          (by rw [aSwap_size]; exact hs) hpr (by omega) hlt (by omega)
          hLnew hRnew (by omega)
      refine ⟨c1, ?_, ?_, c4, c5, c6, c7⟩
      · intro x hx
        rw [c2 x hx, aGet_aSwap t hi1 hj1 x,
          if_neg (show ¬ x = scanDown v t vp pj t.size by omega),
          if_neg (show ¬ x = scanUp v t vp pi t.size by omega)]
      · exact c3.trans (segOf_aSwap_perm t (show pr < t.size by omega)
          (by omega) (by omega) (by omega) (by omega))

/-- A conditional exchange `if (LT(v[*b], v[*a])) INTP_SWAP(*a, *b)` as in
numpy's median-of-3 selection: sizes and untouched cells are preserved,
afterwards the key at `a` is at most the key at `b`, the two keys are
either kept or exchanged, and the window is permuted. -/
theorem condSwap_spec (v : Array ℚ) (t : Array ℕ) (a b pl pr : ℕ)
    (hpr : pr < t.size) (h1 : pl ≤ a) (h2 : a ≤ pr) (h3 : pl ≤ b)
    (h4 : b ≤ pr) (hab : ¬ a = b) :
    (if kGet v t b < kGet v t a then aSwap t b a else t).size = t.size ∧
    (∀ x, ¬ x = a → ¬ x = b →
      aGet (if kGet v t b < kGet v t a then aSwap t b a else t) x =
        aGet t x) ∧
    kGet v (if kGet v t b < kGet v t a then aSwap t b a else t) a ≤
      kGet v (if kGet v t b < kGet v t a then aSwap t b a else t) b ∧
    ((kGet v (if kGet v t b < kGet v t a then aSwap t b a else t) a =
        kGet v t a ∧
      kGet v (if kGet v t b < kGet v t a then aSwap t b a else t) b =
        kGet v t b) ∨
     (kGet v (if kGet v t b < kGet v t a then aSwap t b a else t) a =
        kGet v t b ∧
      kGet v (if kGet v t b < kGet v t a then aSwap t b a else t) b =
        kGet v t a)) ∧
    (segOf (if kGet v t b < kGet v t a then aSwap t b a else t) pl
      (pr + 1 - pl)).Perm (segOf t pl (pr + 1 - pl)) := by
  have ha : a < t.size := lt_of_le_of_lt h2 hpr
  have hb : b < t.size := lt_of_le_of_lt h4 hpr
  by_cases hc : kGet v t b < kGet v t a
  · rw [if_pos hc]
    have ea : kGet v (aSwap t b a) a = kGet v t b := by
      rw [kGet_aSwap v t hb ha a, if_pos rfl]
    have eb : kGet v (aSwap t b a) b = kGet v t a := by
      rw [kGet_aSwap v t hb ha b, if_neg (fun h => hab h.symm), if_pos rfl]
    refine ⟨aSwap_size t b a, ?_, ?_, Or.inr ⟨ea, eb⟩,
      segOf_aSwap_perm t hpr h3 h4 h1 h2⟩
    · intro x hxa hxb
      rw [aGet_aSwap t hb ha x, if_neg hxa, if_neg hxb]
    · rw [ea, eb]
      exact hc.le
  · rw [if_neg hc]
    exact ⟨rfl, fun x _ _ => rfl, le_of_not_lt hc, Or.inl ⟨rfl, rfl⟩,
      List.Perm.refl _⟩

/-- A key property holding everywhere on a window transfers across a
permutation of the window's contents: the keys are looked up through the
stored indices, so permuting the indices permutes the keys. -/
theorem seg_perm_key_pred (v : Array ℚ) (P : ℚ → Prop) {s u : Array ℕ}
    {pl len : ℕ}
    (hperm : (segOf s pl len).Perm (segOf u pl len))
    (hb : ∀ k, k < len → P (kGet v u (pl + k))) :
    ∀ k, k < len → P (kGet v s (pl + k)) := by
  intro k hk
  have hmem : aGet s (pl + k) ∈ segOf s pl len := mem_segOf.mpr ⟨k, hk, rfl⟩
  obtain ⟨m, hm, hme⟩ := mem_segOf.mp (hperm.mem_iff.mp hmem)
  have he : kGet v s (pl + k) = kGet v u (pl + m) := by
    unfold kGet
    rw [hme]
  rw [he]
  exact hb m hm

/-- A permutation of a subwindow extends to a permutation of an enclosing
window when everything outside the subwindow is untouched. -/
theorem segOf_perm_extend {s u : Array ℕ} {pl pr a b : ℕ}
    (h1 : pl ≤ a) (h2 : a ≤ b) (h3 : b ≤ pr)
    (hperm : (segOf s a (b + 1 - a)).Perm (segOf u a (b + 1 - a)))
    (hout : ∀ x, x < a ∨ b < x → aGet s x = aGet u x) :
    (segOf s pl (pr + 1 - pl)).Perm (segOf u pl (pr + 1 - pl)) := by
  have key : ∀ (w : Array ℕ), segOf w pl (pr + 1 - pl) =
      segOf w pl (a - pl) ++
        (segOf w a (b + 1 - a) ++ segOf w (b + 1) (pr - b)) := by
    intro w
    have e1 : pr + 1 - pl = (a - pl) + ((b + 1 - a) + (pr - b)) := by omega
    rw [e1, segOf_append]
    have e2 : pl + (a - pl) = a := by omega
    rw [e2, segOf_append]
    have e3 : a + (b + 1 - a) = b + 1 := by omega
    rw [e3]
  have c1 : segOf s pl (a - pl) = segOf u pl (a - pl) :=
    segOf_congr (fun k hk => hout (pl + k) (Or.inl (by omega)))
  have c3 : segOf s (b + 1) (pr - b) = segOf u (b + 1) (pr - b) :=
    segOf_congr (fun k _ => hout ((b + 1) + k) (Or.inr (by omega)))
  rw [key s, key u, c1, c3]
  exact List.Perm.append_left _ (hperm.append_right _)

/-- One insertion step keeps the accumulator's keys ascending, with no
assumption on the payloads. -/
theorem insOne_pairwise_le {p : ℕ × ℚ} {acc : List (ℕ × ℚ)}
    (h : List.Pairwise (fun a b : ℕ × ℚ => a.2 ≤ b.2) acc) :
    List.Pairwise (fun a b : ℕ × ℚ => a.2 ≤ b.2) (insOne p acc) := by
  induction acc with
  | nil => simp [insOne]
  | cons q rest ih =>
    rw [List.pairwise_cons] at h
    by_cases hq : q.2 ≤ p.2
    · rw [insOne, if_pos hq, List.pairwise_cons]
      constructor
      · intro x hx
        rcases List.mem_cons.mp ((insOne_perm p rest).mem_iff.mp hx) with
          hx' | hx'
        · exact hx' ▸ hq
        · exact h.1 x hx'
      · exact ih h.2
    · rw [insOne, if_neg hq, List.pairwise_cons]
      have hpq : p.2 ≤ q.2 := (lt_of_not_le hq).le
      constructor
      · intro x hx
        rcases List.mem_cons.mp hx with hx' | hx'
        · exact hx' ▸ hpq
        · exact hpq.trans (h.1 x hx')
      · rw [List.pairwise_cons]
        exact ⟨h.1, h.2⟩

/-- The insertion fold keeps keys ascending, with no assumption on the
payloads. -/
theorem foldl_insOne_pairwise_le :
    ∀ (l acc : List (ℕ × ℚ)),
      List.Pairwise (fun a b : ℕ × ℚ => a.2 ≤ b.2) acc →
      List.Pairwise (fun a b : ℕ × ℚ => a.2 ≤ b.2)
        (l.foldl (fun a p => insOne p a) acc) := by
  intro l
  induction l with
  | nil => exact fun acc h => h
  | cons p rest ih =>
    intro acc h
    rw [List.foldl_cons]
    exact ih (insOne p acc) (insOne_pairwise_le h)

/-- Writing a block of values back keeps the array size. -/
theorem writeRange_size (pl : ℕ) (f : ℕ → ℕ) :
    ∀ (n : ℕ) (t : Array ℕ),
      ((List.range n).foldl
        (fun acc k => acc.setD (pl + k) (f k)) t).size = t.size := by
  intro n
  induction n with
  | zero => intro t; rfl
  | succ n ih =>
    intro t
    rw [List.range_succ, List.foldl_append, List.foldl_cons, List.foldl_nil,
      Array.size_setD, ih]

/-- Pointwise description of writing a block of values back, when the
block fits inside the array. -/
theorem writeRange_get (pl : ℕ) (f : ℕ → ℕ) :
    ∀ (n : ℕ) (t : Array ℕ), pl + n ≤ t.size → ∀ y,
      aGet ((List.range n).foldl
        (fun acc k => acc.setD (pl + k) (f k)) t) y =
        if pl ≤ y ∧ y < pl + n then f (y - pl) else aGet t y := by
  intro n
  induction n with
  | zero =>
    intro t _ y
    rw [if_neg (by omega)]
    rfl
  | succ n ih =>
    intro t ht y
    rw [List.range_succ, List.foldl_append, List.foldl_cons, List.foldl_nil]
    have hsz : pl + n < ((List.range n).foldl
        (fun acc k => acc.setD (pl + k) (f k)) t).size := by
      rw [writeRange_size]
      omega
    rw [aGet_setD_lt _ _ hsz y]
    by_cases hy : y = pl + n
    · rw [if_pos hy, if_pos (by omega)]
      congr 1
      omega
    · rw [if_neg hy, ih t (by omega) y]
      by_cases hcc : pl ≤ y ∧ y < pl + n
      · rw [if_pos hcc, if_pos (by omega)]
      · rw [if_neg hcc, if_neg (by omega)]

/-- Core analysis of the small-segment insertion sort: abstracting the
sorted payload list `S` and the written-back array `R` by their defining
equations, the write-back preserves size, touches only the window, permutes
the window's contents, and leaves the window's keys ascending. -/
theorem insArrCore_spec (v : Array ℚ) (t : Array ℕ) (pl pr : ℕ)
    (hpl : pl ≤ pr) (hpr : pr < t.size) (S : List ℕ)
    (hSdef : S = (insSortPairs ((segOf t pl (pr + 1 - pl)).map
      (fun i => (i, v.getD i 0)))).map Prod.fst)
    (R : Array ℕ)
    (hRdef : R = (List.range S.length).foldl
      (fun acc k => acc.setD (pl + k) (S.getD k 0)) t) :
    R.size = t.size ∧
    (∀ x, x < pl ∨ pr < x → aGet R x = aGet t x) ∧
    (segOf R pl (pr + 1 - pl)).Perm (segOf t pl (pr + 1 - pl)) ∧
    (∀ i j, pl ≤ i → i ≤ j → j ≤ pr → kGet v R i ≤ kGet v R j) := by
  have hperm0 : (insSortPairs ((segOf t pl (pr + 1 - pl)).map
      (fun i => (i, v.getD i 0)))).Perm
      ((segOf t pl (pr + 1 - pl)).map (fun i => (i, v.getD i 0))) := by
    have hh := foldl_insOne_perm ((segOf t pl (pr + 1 - pl)).map
      (fun i => (i, v.getD i 0))) []
    rwa [List.append_nil] at hh
  have hSperm : S.Perm (segOf t pl (pr + 1 - pl)) := by
    rw [hSdef]
    refine (hperm0.map Prod.fst).trans ?_
    rw [List.map_map]
    have hid : (Prod.fst ∘ fun i : ℕ => (i, v.getD i 0)) = id := rfl
    rw [hid, List.map_id]
  have hSlen : S.length = pr + 1 - pl := by
    rw [hSperm.length_eq, length_segOf]
  have hSkey : ∀ p ∈ insSortPairs ((segOf t pl (pr + 1 - pl)).map
      (fun i => (i, v.getD i 0))), p.2 = v.getD p.1 0 := by
    intro p hp
    have hp2 := hperm0.mem_iff.mp hp
    rw [List.mem_map] at hp2
    obtain ⟨i, _, rfl⟩ := hp2
    rfl
  have hSsorted : List.Pairwise (fun i j => v.getD i 0 ≤ v.getD j 0) S := by
    rw [hSdef, List.pairwise_map]
    have hpw : List.Pairwise (fun a b : ℕ × ℚ => a.2 ≤ b.2)
        (insSortPairs ((segOf t pl (pr + 1 - pl)).map
          (fun i => (i, v.getD i 0)))) :=
      foldl_insOne_pairwise_le _ [] List.Pairwise.nil
    refine hpw.imp_of_mem ?_
    intro p q hpmem hqmem hpq
    rw [← hSkey p hpmem, ← hSkey q hqmem]
    exact hpq
  have hsize : R.size = t.size := by
    rw [hRdef]
    exact writeRange_size pl _ S.length t
  have hbound : pl + S.length ≤ t.size := by omega
  have hget : ∀ y, aGet R y =
      if pl ≤ y ∧ y < pl + S.length then S.getD (y - pl) 0 else aGet t y := by
    intro y
    rw [hRdef]
    exact writeRange_get pl _ S.length t hbound y
  refine ⟨hsize, ?_, ?_, ?_⟩
  · intro x hx
    rw [hget x, if_neg (by omega)]
  · have hwin : segOf R pl (pr + 1 - pl) = S := by
      apply List.ext_getElem
      · rw [length_segOf, hSlen]
      · intro k hk1 hk2
        have hkb : k < pr + 1 - pl := by rwa [length_segOf] at hk1
        rw [segOf_getElem, hget (pl + k), if_pos (by omega)]
        have he : pl + k - pl = k := by omega
        rw [he, List.getD_eq_getElem S 0 hk2]
    rw [hwin]
    exact hSperm
  · intro i j hi hij hj
    rcases eq_or_lt_of_le hij with rfl | hlt
    · exact le_rfl
    · unfold kGet
      rw [hget i, hget j, if_pos (by omega), if_pos (by omega),
        List.getD_eq_getElem S 0 (show i - pl < S.length by omega),
        List.getD_eq_getElem S 0 (show j - pl < S.length by omega)]
      exact List.pairwise_iff_getElem.mp hSsorted (i - pl) (j - pl) _ _
        (by omega)

/-- The numpy small-segment insertion sort: preserves size, touches only
the window `[pl, pr]`, permutes the window's indices, and leaves the
window's keys ascending. -/
theorem insertRangeArr_spec (v : Array ℚ) (t : Array ℕ) (pl pr : ℕ)
    (hpl : pl ≤ pr) (hpr : pr < t.size) :
    (insertRangeArr v t pl pr).size = t.size ∧
    (∀ x, x < pl ∨ pr < x → aGet (insertRangeArr v t pl pr) x = aGet t x) ∧
    (segOf (insertRangeArr v t pl pr) pl (pr + 1 - pl)).Perm
      (segOf t pl (pr + 1 - pl)) ∧
    (∀ i j, pl ≤ i → i ≤ j → j ≤ pr →
      kGet v (insertRangeArr v t pl pr) i ≤
        kGet v (insertRangeArr v t pl pr) j) := by
  refine insArrCore_spec v t pl pr hpl hpr _ rfl (insertRangeArr v t pl pr) ?_
  rfl

/-- The transcribed numpy introsort on a window `[pl, pr]`: preserves
size, touches nothing outside the window, permutes the window's contents,
and leaves the window's keys ascending — at every window size. -/
theorem qsortRec_spec (v : Array ℚ) :
    ∀ (fuel : ℕ) (t : Array ℕ) (pl pr : ℕ),
      pl ≤ pr → pr < t.size → pr - pl < fuel →
      (qsortRec v t pl pr fuel).size = t.size ∧
      (∀ x, x < pl ∨ pr < x → aGet (qsortRec v t pl pr fuel) x = aGet t x) ∧
      (segOf (qsortRec v t pl pr fuel) pl (pr + 1 - pl)).Perm
        (segOf t pl (pr + 1 - pl)) ∧
      (∀ i j, pl ≤ i → i ≤ j → j ≤ pr →
        kGet v (qsortRec v t pl pr fuel) i ≤
          kGet v (qsortRec v t pl pr fuel) j) := by
  intro fuel
  induction fuel with
  | zero => intro t pl pr _ _ h3; omega
  | succ fuel ih =>
    intro t pl pr hplr hpr hfuel
    rw [qsortRec]
    by_cases hbig : 15 < pr - pl
    · rw [if_pos hbig]
      set pm := pl + (pr - pl) / 2 with hpm
      set t1 := if kGet v t pm < kGet v t pl then aSwap t pm pl else t
        with ht1
      set t2 := if kGet v t1 pr < kGet v t1 pm then aSwap t1 pr pm else t1
        with ht2
      set t3 := if kGet v t2 pm < kGet v t2 pl then aSwap t2 pm pl else t2
        with ht3
      set vp := kGet v t3 pm with hvp
      set t4 := aSwap t3 pm (pr - 1) with ht4
      set s := partLoop v t4 vp pl (pr - 1) t4.size with hs
      set t6 := aSwap s.1 s.2 (pr - 1) with ht6
      set t7 := qsortRec v t6 pl (s.2 - 1) fuel with ht7
      obtain ⟨s1, u1, o1, e1, p1⟩ :=
        condSwap_spec v t pl pm pl pr hpr le_rfl (by omega) (by omega)
          (by omega) (by omega)
      rw [← ht1] at s1 u1 o1 e1 p1
      obtain ⟨s2, u2, o2, e2, p2⟩ :=
        condSwap_spec v t1 pm pr pl pr (by omega) (by omega) (by omega)
          (by omega) le_rfl (by omega)
      rw [← ht2] at s2 u2 o2 e2 p2
      obtain ⟨s3, u3, o3, e3, p3⟩ :=
        condSwap_spec v t2 pl pm pl pr (by omega) le_rfl (by omega)
          (by omega) (by omega) (by omega)
      rw [← ht3] at s3 u3 o3 e3 p3
      have q2pl : kGet v t2 pl = kGet v t1 pl := by
        unfold kGet
        rw [u2 pl (by omega) (by omega)]
      have q3pr : kGet v t3 pr = kGet v t2 pr := by
        unfold kGet
        rw [u3 pr (by omega) (by omega)]
      have hpiv_lo : kGet v t3 pl ≤ vp := by
        rw [hvp]
        exact o3
      have hpiv_hi : vp ≤ kGet v t3 pr := by
        rw [hvp]
        rcases e2 with ⟨a1, a2⟩ | ⟨a1, a2⟩ <;>
          rcases e3 with ⟨b1, b2⟩ | ⟨b1, b2⟩ <;>
          linarith [o1, o2, q2pl, q3pr]
      have ht3size : t3.size = t.size := by rw [s3, s2, s1]
      have hpm_lt : pm < t3.size := by omega
      have hpr1_lt : pr - 1 < t3.size := by omega
      have s4 : t4.size = t.size := by rw [ht4, aSwap_size, ht3size]
      have k4 : ∀ y, kGet v t4 y = if y = pr - 1 then kGet v t3 pm
          else if y = pm then kGet v t3 (pr - 1) else kGet v t3 y := by
        intro y
        rw [ht4]
        exact kGet_aSwap v t3 hpm_lt hpr1_lt y
      have k4piv : kGet v t4 (pr - 1) = vp := by
        rw [k4, if_pos rfl, hvp]
      have k4pl : kGet v t4 pl ≤ vp := by
        rw [k4, if_neg (by omega), if_neg (by omega)]
        exact hpiv_lo
      have k4pr : vp ≤ kGet v t4 pr := by
        rw [k4, if_neg (by omega), if_neg (by omega)]
        exact hpiv_hi
      have flankL : ∀ x, pl ≤ x → x ≤ pl → kGet v t4 x ≤ vp := by
        intro x hx1 hx2
        have hxe : x = pl := by omega
        rw [hxe]
        exact k4pl
      have flankR : ∀ x, pr - 1 ≤ x → x ≤ pr - 1 → vp ≤ kGet v t4 x := by
        intro x hx1 hx2
        have hxe : x = pr - 1 := by omega
        rw [hxe, k4piv]
      obtain ⟨P1, P2, P3, P4, P5, P6, P7⟩ :=
        partLoop_spec v vp pl pr t.size t4.size t4 pl (pr - 1) s4 hpr
          le_rfl (by omega) le_rfl flankL flankR (by omega)
      rw [← hs] at P1 P2 P3 P4 P5 P6 P7
      have k5piv : kGet v s.1 (pr - 1) = vp := by
        unfold kGet
        rw [P2 (pr - 1) (Or.inr le_rfl)]
        exact k4piv
      have k5pr : vp ≤ kGet v s.1 pr := by
        unfold kGet
        rw [P2 pr (Or.inr (by omega))]
        exact k4pr
      have hs2_lt : s.2 < s.1.size := by omega
      have hpr1_lt5 : pr - 1 < s.1.size := by omega
      have s6 : t6.size = t.size := by rw [ht6, aSwap_size, P1]
      have k6 : ∀ y, kGet v t6 y = if y = pr - 1 then kGet v s.1 s.2
          else if y = s.2 then kGet v s.1 (pr - 1) else kGet v s.1 y := by
        intro y
        rw [ht6]
        exact kGet_aSwap v s.1 hs2_lt hpr1_lt5 y
      have k6piv : kGet v t6 s.2 = vp := by
        by_cases he : s.2 = pr - 1
        · rw [k6, if_pos he, he]
          exact k5piv
        · rw [k6, if_neg he, if_pos rfl]
          exact k5piv
      have k6left : ∀ x, pl ≤ x → x < s.2 → kGet v t6 x ≤ vp := by
        intro x hx1 hx2
        rw [k6, if_neg (by omega), if_neg (by omega)]
        exact P6 x hx1 hx2
      have k6right : ∀ x, s.2 < x → x ≤ pr → vp ≤ kGet v t6 x := by
        intro x hx1 hx2
        by_cases hxe : x = pr - 1
        · rw [k6, if_pos hxe]
          exact P7 s.2 le_rfl P5
        · by_cases hxr : x = pr
          · rw [k6, if_neg (by omega), if_neg (by omega), hxr]
            exact k5pr
          · rw [k6, if_neg hxe, if_neg (by omega)]
            exact P7 x hx1.le (by omega)
      have u6 : ∀ x, x < pl ∨ pr < x → aGet t6 x = aGet t x := by
        intro x hx
        rw [ht6, aGet_aSwap s.1 hs2_lt hpr1_lt5 x,
          if_neg (show ¬ x = pr - 1 by omega),
          if_neg (show ¬ x = s.2 by omega), P2 x (by omega), ht4,
          aGet_aSwap t3 hpm_lt hpr1_lt x,
          if_neg (show ¬ x = pr - 1 by omega),
          if_neg (show ¬ x = pm by omega), u3 x (by omega) (by omega),
          u2 x (by omega) (by omega), u1 x (by omega) (by omega)]
      have perm6 : (segOf t6 pl (pr + 1 - pl)).Perm
          (segOf t pl (pr + 1 - pl)) := by
        have w6 : (segOf t6 pl (pr + 1 - pl)).Perm
            (segOf s.1 pl (pr + 1 - pl)) := by
          rw [ht6]
          exact segOf_aSwap_perm s.1 (show pr < s.1.size by omega)
            (by omega) (by omega) (by omega) (by omega)
        have w4 : (segOf t4 pl (pr + 1 - pl)).Perm
            (segOf t3 pl (pr + 1 - pl)) := by
          rw [ht4]
          exact segOf_aSwap_perm t3 (show pr < t3.size by omega)
            (by omega) (by omega) (by omega) (by omega)
        exact w6.trans (P3.trans (w4.trans (p3.trans (p2.trans p1))))
      obtain ⟨A1, A2, A3, A4⟩ := ih t6 pl (s.2 - 1) (by omega) (by omega)
        (by omega)
      rw [← ht7] at A1 A2 A3 A4
      have s7 : t7.size = t.size := by rw [A1, s6]
      have hlen1 : (s.2 - 1) + 1 - pl = s.2 - pl := by omega
      have A3w := A3
      rw [hlen1] at A3w
      have B6 : ∀ k, k < s.2 - pl → kGet v t6 (pl + k) ≤ vp := by
        intro k hk
        exact k6left (pl + k) (by omega) (by omega)
      have B7 := seg_perm_key_pred v (fun q => q ≤ vp) A3w B6
      have k7left : ∀ x, pl ≤ x → x < s.2 → kGet v t7 x ≤ vp := by
        intro x hx1 hx2
        have hb := B7 (x - pl) (by omega)
        rw [show pl + (x - pl) = x by omega] at hb
        exact hb
      have u7hi : ∀ x, s.2 ≤ x → aGet t7 x = aGet t6 x := by
        intro x hx1
        exact A2 x (Or.inr (by omega))
      have k7piv : kGet v t7 s.2 = vp := by
        unfold kGet
        rw [u7hi s.2 le_rfl]
        exact k6piv
      have k7right : ∀ x, s.2 < x → x ≤ pr → vp ≤ kGet v t7 x := by
        intro x hx1 hx2
        unfold kGet
        rw [u7hi x hx1.le]
        exact k6right x hx1 hx2
      obtain ⟨C1, C2, C3, C4⟩ := ih t7 (s.2 + 1) pr (by omega) (by omega)
        (by omega)
      have hlen2 : pr + 1 - (s.2 + 1) = pr - s.2 := by omega
      have C3w := C3
      rw [hlen2] at C3w
      have D7 : ∀ k, k < pr - s.2 →
          vp ≤ kGet v t7 ((s.2 + 1) + k) := by
        intro k hk
        exact k7right ((s.2 + 1) + k) (by omega) (by omega)
      have DR := seg_perm_key_pred v (fun q => vp ≤ q) C3w D7
      have kRright : ∀ x, s.2 < x → x ≤ pr →
          vp ≤ kGet v (qsortRec v t7 (s.2 + 1) pr fuel) x := by
        intro x hx1 hx2
        have hb := DR (x - (s.2 + 1)) (by omega)
        rw [show s.2 + 1 + (x - (s.2 + 1)) = x by omega] at hb
        exact hb
      have uRlow : ∀ x, x ≤ s.2 →
          aGet (qsortRec v t7 (s.2 + 1) pr fuel) x = aGet t7 x := by
        intro x hx
        exact C2 x (Or.inl (by omega))
      have kRleft : ∀ x, pl ≤ x → x < s.2 →
          kGet v (qsortRec v t7 (s.2 + 1) pr fuel) x ≤ vp := by
        intro x hx1 hx2
        unfold kGet
        rw [uRlow x (by omega)]
        exact k7left x hx1 hx2
      have kRpiv : kGet v (qsortRec v t7 (s.2 + 1) pr fuel) s.2 = vp := by
        unfold kGet
        rw [uRlow s.2 le_rfl]
        exact k7piv
      have kRleftSorted : ∀ i j, pl ≤ i → i ≤ j → j ≤ s.2 - 1 →
          kGet v (qsortRec v t7 (s.2 + 1) pr fuel) i ≤
            kGet v (qsortRec v t7 (s.2 + 1) pr fuel) j := by
        intro i j h1 h2 h3
        unfold kGet
        rw [uRlow i (by omega), uRlow j (by omega)]
        exact A4 i j h1 h2 h3
      refine ⟨C1.trans s7, ?_, ?_, ?_⟩
      · intro x hx
        rw [C2 x (by omega), A2 x (by omega), u6 x hx]
      · have E2 : (segOf (qsortRec v t7 (s.2 + 1) pr fuel) pl
            (pr + 1 - pl)).Perm (segOf t7 pl (pr + 1 - pl)) :=
          segOf_perm_extend (by omega) (by omega) le_rfl C3 C2
        have E1 : (segOf t7 pl (pr + 1 - pl)).Perm
            (segOf t6 pl (pr + 1 - pl)) :=
          segOf_perm_extend le_rfl (by omega) (by omega) A3 A2
        exact E2.trans (E1.trans perm6)
      · intro i j h1 h2 h3
        rcases Nat.lt_trichotomy j s.2 with hj | hj | hj
        · exact kRleftSorted i j h1 h2 (by omega)
        · have hRj : kGet v (qsortRec v t7 (s.2 + 1) pr fuel) j = vp := by
            rw [hj]
            exact kRpiv
          rw [hRj]
          by_cases hie : i = s.2
          · rw [hie, kRpiv]
          · exact kRleft i h1 (by omega)
        · by_cases hi2 : s.2 < i
          · exact C4 i j (by omega) h2 h3
          · have hLi : kGet v (qsortRec v t7 (s.2 + 1) pr fuel) i ≤ vp := by
              by_cases hie : i = s.2
              · rw [hie, kRpiv]
              · exact kRleft i h1 (by omega)
            exact hLi.trans (kRright j hj h3)
    · rw [if_neg hbig]
      exact insertRangeArr_spec v t pl pr hplr hpr

/-- Reading a list through its array form agrees with the list read. -/
theorem toArray_getD (v : List ℚ) (i : ℕ) :
    v.toArray.getD i 0 = v.getD i 0 := by
  unfold Array.getD
  by_cases h : i < v.toArray.size
  · rw [dif_pos h, List.getD_eq_getElem v 0 (show i < v.length from h)]
    rfl
  · rw [dif_neg h]
    have h2 : ¬ i < v.length := h
    rw [List.getD_eq_default v 0 (Nat.le_of_not_lt h2)]

/-- The full-array window read is the array's list of elements. -/
theorem segOf_all (u : Array ℕ) : segOf u 0 u.size = u.toList := by
  apply List.ext_getElem
  · rw [length_segOf]
  · intro k h1 h2
    have hk : k < u.size := by rwa [length_segOf] at h1
    rw [segOf_getElem, Nat.zero_add, aGet_eq_getElem hk]
    rfl

/-- `np.argsort(kind=quicksort)` on any key list returns a permutation of
the index range that arranges the keys in ascending order. -/
theorem argsortNumpy_spec (v : List ℚ) :
    (argsortNumpy v).Perm (List.range v.length) ∧
    List.Pairwise (fun i j => v.getD i 0 ≤ v.getD j 0) (argsortNumpy v) := by
  unfold argsortNumpy
  by_cases h0 : v.length = 0
  · rw [if_pos h0, h0, List.range_zero]
    exact ⟨List.Perm.refl _, List.Pairwise.nil⟩
  · rw [if_neg h0]
    by_cases h16 : v.length ≤ 16
    · rw [if_pos h16]
      refine ⟨smallArgsort_perm v, ?_⟩
      refine (smallArgsort_pairwise v).imp ?_
      intro i j hij
      rcases hij with h | ⟨h, -⟩
      · exact h.le
      · exact le_of_eq h
    · rw [if_neg h16]
      have hlen : (List.range v.length).toArray.size = v.length :=
        List.length_range v.length
      obtain ⟨Q1, Q2, Q3, Q4⟩ :=
        qsortRec_spec v.toArray v.length (List.range v.length).toArray 0
          (v.length - 1) (Nat.zero_le _) (by rw [hlen]; omega) (by omega)
      have hRsize :
          (qsortRec v.toArray (List.range v.length).toArray 0
            (v.length - 1) v.length).size = v.length := by
        rw [Q1]
        exact hlen
      have hlen2 : (v.length - 1) + 1 - 0 = v.length := by omega
      rw [hlen2] at Q3
      have e1 := segOf_all (qsortRec v.toArray
        (List.range v.length).toArray 0 (v.length - 1) v.length)
      rw [hRsize] at e1
      have e2 : segOf (List.range v.length).toArray 0 v.length =
          List.range v.length := by
        have hh := segOf_all (List.range v.length).toArray
        rw [hlen] at hh
        rw [hh]
      rw [e1, e2] at Q3
      refine ⟨Q3, ?_⟩
      rw [List.pairwise_iff_getElem]
      intro a b ha hb hab
      have haz : a < (qsortRec v.toArray (List.range v.length).toArray 0
          (v.length - 1) v.length).size := ha
      have hbz : b < (qsortRec v.toArray (List.range v.length).toArray 0
          (v.length - 1) v.length).size := hb
      have e3 : v.getD ((qsortRec v.toArray (List.range v.length).toArray 0
          (v.length - 1) v.length).toList[a]) 0 =
          kGet v.toArray (qsortRec v.toArray (List.range v.length).toArray 0
            (v.length - 1) v.length) a := by
        unfold kGet
        rw [toArray_getD]
        congr 1
        rw [aGet_eq_getElem haz]
        exact rfl
      have e4 : v.getD ((qsortRec v.toArray (List.range v.length).toArray 0
          (v.length - 1) v.length).toList[b]) 0 =
          kGet v.toArray (qsortRec v.toArray (List.range v.length).toArray 0
            (v.length - 1) v.length) b := by
        unfold kGet
        rw [toArray_getD]
        congr 1
        rw [aGet_eq_getElem hbz]
        exact rfl
      have hq := Q4 a b (Nat.zero_le a) hab.le (by
        have hb2 : b < v.length := by rw [← hRsize]; exact hbz
        omega)
      rw [← e3, ← e4] at hq
      exact hq

/-- Claim C6 (corrected): `Mesh.sort` applies a permutation of the
triangle indices, and at every mesh size the `np.argsort` permutation
arranges the mean depths in ascending order, so the output triangles'
mean depths are adjacent-monotone; the sort is additionally stable — the
permutation is lexicographic in (mean z, input position) — only for
meshes of at most 16 triangles, numpy quicksort's pure insertion-sort
regime, while larger meshes can have equal-depth triangles reordered
(see the 17-triangle counterexample). -/
theorem sort_monotone_every_size_stable_small (mesh : List Tri) :
    (argsortNumpy (meanZs mesh)).Perm (List.range mesh.length) ∧
    List.Pairwise (fun i j => (meanZs mesh).getD i 0 ≤ (meanZs mesh).getD j 0)
      (argsortNumpy (meanZs mesh)) ∧
    List.Chain' (fun a b => meanZ a ≤ meanZ b) (Mesh.sort mesh) ∧
    (mesh.length ≤ 16 →
      List.Pairwise (fun i j =>
        (meanZs mesh).getD i 0 < (meanZs mesh).getD j 0 ∨
        ((meanZs mesh).getD i 0 = (meanZs mesh).getD j 0 ∧ i < j))
        (argsortNumpy (meanZs mesh))) := by
  have hlv : (meanZs mesh).length = mesh.length := List.length_map _ _
  obtain ⟨hperm0, hpw⟩ := argsortNumpy_spec (meanZs mesh)
  have hperm : (argsortNumpy (meanZs mesh)).Perm (List.range mesh.length) := by
    rw [← hlv]
    exact hperm0
  refine ⟨hperm, hpw, ?_, ?_⟩
  · have hbound : ∀ i ∈ argsortNumpy (meanZs mesh), i < mesh.length :=
      fun i hi => List.mem_range.mp (hperm.mem_iff.mp hi)
    have hle : List.Pairwise
        (fun i j => meanZ (mesh.getD i triDefault) ≤ meanZ (mesh.getD j triDefault))
        (argsortNumpy (meanZs mesh)) := by
      refine hpw.imp_of_mem ?_
      intro i j hi hj hij
      rw [meanZs_getD (hbound i hi), meanZs_getD (hbound j hj)] at hij
      exact hij
    unfold Mesh.sort
    have hfinal : List.Pairwise (fun a b => meanZ a ≤ meanZ b)
        (List.map (fun i => mesh.getD i triDefault) (argsortNumpy (meanZs mesh))) :=
      List.pairwise_map.mpr hle
    exact hfinal.chain'
  · intro h16
    have ha : argsortNumpy (meanZs mesh) = smallArgsort (meanZs mesh) := by
      unfold argsortNumpy
      by_cases h0 : (meanZs mesh).length = 0
      · rw [if_pos h0]
        have he : meanZs mesh = [] := List.length_eq_zero.mp h0
        rw [he]
        rfl
      · rw [if_neg h0, if_pos (by omega)]
    rw [ha]
    exact smallArgsort_pairwise (meanZs mesh)

/-- Witness for C6 on a three-triangle mesh with all depths equal: the
argsort is a permutation of `range 3`, the output depths ascend, and the
16-triangle bound holds so the order is also stable. -/
theorem sort_monotone_every_size_stable_small_witness :
    (argsortNumpy (meanZs mesh3)).Perm (List.range mesh3.length) ∧
    List.Pairwise (fun i j => (meanZs mesh3).getD i 0 ≤ (meanZs mesh3).getD j 0)
      (argsortNumpy (meanZs mesh3)) ∧
    List.Chain' (fun a b => meanZ a ≤ meanZ b) (Mesh.sort mesh3) ∧
    List.Pairwise (fun i j =>
      (meanZs mesh3).getD i 0 < (meanZs mesh3).getD j 0 ∨
      ((meanZs mesh3).getD i 0 = (meanZs mesh3).getD j 0 ∧ i < j))
      (argsortNumpy (meanZs mesh3)) := by
  obtain ⟨h1, h2, h3, h4⟩ := sort_monotone_every_size_stable_small mesh3
  exact ⟨h1, h2, h3, h4 (by decide)⟩

/-- Counterexample to C6 as stated: seventeen triangles, all of mean depth
0, are reordered by `Mesh.sort` — numpy's default quicksort partition
exchange scrambles equal keys once the input exceeds the 16-element
insertion-sort cutoff, so the depth sort is not stable. -/
theorem sort_seventeen_equal_reordered :
    meanZs ex17 = List.replicate 17 0 ∧
    Mesh.sort ex17 ≠ ex17 := by
  constructor
  · with_unfolding_all rfl
  · with_unfolding_all decide

/-- Helper for C9: a substring of the right part survives prefixing. -/
theorem charsOccur_append (pat l r : List Char) (h : charsOccur pat r = true) :
    charsOccur pat (l ++ r) = true := by
  induction l with
  | nil => simpa using h
  | cons c cs ih =>
    rw [List.cons_append]
    simp only [charsOccur, Bool.or_eq_true]
    exact Or.inr ih

/-- Helper for C9: a substring of the suffix is a substring of the
concatenation. -/
theorem strOccurs_append_right (pat s t : String)
    (h : strOccurs pat t = true) : strOccurs pat (s ++ t) = true := by
  unfold strOccurs at h ⊢
  have e : (s ++ t).toList = s.toList ++ t.toList := String.data_append s t
  rw [e]
  exact charsOccur_append _ _ _ h

/-- Helper for C9: whatever the rejected method string is, the `KeyError`
message of `Mesh.translate` names all four accepted ops. -/
theorem translateErrMsg_names (m : String) :
    namesSet (translateErrMsg m)
      ["\x27add\x27", "\x27sub\x27", "\x27mul\x27", "\x27div\x27"] = true := by
  have hocc : ∀ pat : String,
      strOccurs pat ". Accepts: \x27add\x27, \x27sub\x27, \x27mul\x27, \x27div\x27" = true →
      strOccurs pat (translateErrMsg m) = true := by
    intro pat h
    unfold translateErrMsg
    exact strOccurs_append_right pat _ _ h
  unfold namesSet
  simp only [List.all_cons, List.all_nil, Bool.and_eq_true]
  exact ⟨hocc _ (by decide), hocc _ (by decide), hocc _ (by decide),
    hocc _ (by decide), trivial⟩

/-- Claim C9 (corrected): an unknown translate op raises a `KeyError`
naming the accepted set, and the basics rotation builder raises a
`ValueError` naming the accepted axes — but the production rotation-matrix
builder `geometry.get_rotation_matrix` instead dies with an
`UnboundLocalError` that names no accepted keyword at all. -/
theorem unknown_keyword_errors (mesh : List Tri) (d : Vec3) (m ax : String)
    (c s : ℚ) (hm1 : m ≠ "add") (hm2 : m ≠ "sub") (hm3 : m ≠ "mul")
    (hm4 : m ≠ "div") (hx : ax ≠ "x") (hy : ax ≠ "y") (hz : ax ≠ "z") :
    Mesh.translate mesh d m = .error (translateErrMsg m) ∧
    namesSet (translateErrMsg m)
      ["\x27add\x27", "\x27sub\x27", "\x27mul\x27", "\x27div\x27"] = true ∧
    rotation_matrices ax c s = .error basicsAxisErrMsg ∧
    namesSet basicsAxisErrMsg ["\x27x\x27", "\x27y\x27", "\x27z\x27"] = true ∧
    get_rotation_matrix ax c s = .error prodAxisErrMsg ∧
    namesSet prodAxisErrMsg ["\x27x\x27", "\x27y\x27", "\x27z\x27"] = false := by
  refine ⟨?_, translateErrMsg_names m, ?_, by decide, ?_, by decide⟩
  · unfold Mesh.translate
    rw [if_neg hm1, if_neg hm2, if_neg hm3, if_neg hm4]
  · unfold rotation_matrices
    rw [if_neg hx, if_neg hy, if_neg hz]
  · unfold get_rotation_matrix
    rw [if_neg hx, if_neg hy, if_neg hz]

/-- Witness for C9 at the unknown method `wat` and unknown axis `w`. -/
theorem unknown_keyword_errors_witness :
    Mesh.translate [] ⟨0, 0, 0⟩ "wat" = .error (translateErrMsg "wat") ∧
    namesSet (translateErrMsg "wat")
      ["\x27add\x27", "\x27sub\x27", "\x27mul\x27", "\x27div\x27"] = true ∧
    rotation_matrices "w" 0 1 = .error basicsAxisErrMsg ∧
    namesSet basicsAxisErrMsg ["\x27x\x27", "\x27y\x27", "\x27z\x27"] = true ∧
    get_rotation_matrix "w" 0 1 = .error prodAxisErrMsg ∧
    namesSet prodAxisErrMsg ["\x27x\x27", "\x27y\x27", "\x27z\x27"] = false :=
  unknown_keyword_errors [] ⟨0, 0, 0⟩ "wat" "w" 0 1 (by decide) (by decide)
    (by decide) (by decide) (by decide) (by decide) (by decide)

/-- Counterexample to C9 as stated: with the unknown axis `w`, the
production rotation-matrix builder fails with the `UnboundLocalError`
message, which names none of the accepted axis keywords. -/
theorem get_rotation_matrix_unknown_axis_unnamed :
    get_rotation_matrix "w" 0 1 = .error prodAxisErrMsg ∧
    namesSet prodAxisErrMsg ["\x27x\x27", "\x27y\x27", "\x27z\x27"] = false := by
  constructor
  · rfl
  · decide

end Minimal
